/-
A verification development for the log2excel repository.

The repository compares staged/production log files, aligns their lines with
difflib.SequenceMatcher, renders the aligned rows into an XLSX workbook via a
minimal hand-rolled Open XML writer, and can decode an existing workbook back
into its grid model for incremental append.

This file gives a shallow embedding of the core data model and operations:
  * the sequence aligner `_align_logs` (src/log_to_excel.py), including a
    faithful model of difflib.SequenceMatcher with autojunk disabled: the
    longest-matching-block search (maximal size, ties broken by smallest
    start in `a`, then smallest start in `b`), the recursive matching-block
    decomposition, the adjacent-block merge pass, and the opcode walk;
  * the XLSX cell/sheet model and the sheet XML encoder `_build_sheet_xml`
    (src/xlsx_writer.py) together with the decoder `_parse_sheet_rows` and
    the archive loader `_load_existing_sheets` (src/log_to_excel.py), at the
    level of the parsed XML tree (the textual XML serialization and the
    stdlib XML parser are modelled as the identity on this tree, which is
    faithful for the element/attribute/text structure the code exchanges);
  * the report assembler `_build_rows_for_pair` and the sheet-name
    uniqueness loop `_make_unique_sheet_name` (src/log_to_excel.py);
  * the workbook driver `generate_workbook` and writer entry `write_xlsx`,
    with file-system effects made explicit as an action trace.

Theorems at the end settle the specification claims against these
definitions.
-/

import Mathlib

namespace Log2Excel

/-! ## Data model: aligned line pairs (src/log_to_excel.py `_align_logs`) -/

/-- One row of the alignment: staged text, production text, and the optional
1-based source line numbers of the two sides. -/
structure LinePair where
  stg : String
  prd : String
  stgNo : Option Nat
  prdNo : Option Nat
  deriving Repr, DecidableEq

/-! ## difflib.SequenceMatcher model (autojunk=False, no junk)

`_align_logs` calls `difflib.SequenceMatcher(a=stg, b=prd, autojunk=False)`
and consumes `get_opcodes()`.  The matcher is stdlib code; it is embedded
here by its documented semantics: `find_longest_match` returns, among all
maximal matching blocks of the window, the one starting earliest in `a` and,
among those, earliest in `b`; `get_matching_blocks` recursively decomposes
around the longest match, merges adjacent blocks, and appends the
`(len a, len b, 0)` sentinel; `get_opcodes` walks the blocks emitting
replace/delete/insert gaps and equal runs. -/

/-- Length of the common run of `a` and `b` starting at their heads. -/
def runLen : List String → List String → Nat
  | x :: xs, y :: ys => if x = y then runLen xs ys + 1 else 0
  | _, _ => 0

/-- Size of the matching block starting at `(i, j)`, capped by the window
ends `ahi`, `bhi`. -/
def kAt (a b : List String) (ahi bhi i j : Nat) : Nat :=
  min (runLen (a.drop i) (b.drop j)) (min (ahi - i) (bhi - j))

/-- A matching block `(i, j, size)`. -/
abbrev Block := Nat × Nat × Nat

/-- `find_longest_match` on the window `[alo, ahi) × [blo, bhi)`: the block of
maximal size, ties broken by smallest `i`, then smallest `j` (no junk, no
autojunk popularity heuristic).  Realized as a fold in lexicographic start
order with strict improvement, which implements exactly that tie-break. -/
def flm (a b : List String) (alo ahi blo bhi : Nat) : Block :=
  (List.range' alo (ahi - alo)).foldl
    (fun best i =>
      (List.range' blo (bhi - blo)).foldl
        (fun best j =>
          let k := kAt a b ahi bhi i j
          if best.2.2 < k then (i, j, k) else best)
        best)
    (alo, blo, 0)

/-- Recursive matching-block decomposition: find the longest match of the
window, recurse on the parts left and right of it.  The fuel argument bounds
the recursion depth; `a.length + b.length + 1` is always sufficient. -/
def mblocksAux (a b : List String) : Nat → Nat → Nat → Nat → Nat → List Block
  | 0, _, _, _, _ => []
  | fuel + 1, alo, ahi, blo, bhi =>
    let r := flm a b alo ahi blo bhi
    let i := r.1
    let j := r.2.1
    let k := r.2.2
    if k = 0 then []
    else
      mblocksAux a b fuel alo i blo j ++ (i, j, k) :: mblocksAux a b fuel (i + k) ahi (j + k) bhi

/-- The adjacent-block merge pass of `get_matching_blocks`: pending block
`(i1, j1, k1)` is extended whenever the next block starts exactly where it
ends, else flushed (when non-empty). -/
def nonAdjacent : Nat → Nat → Nat → List Block → List Block
  | i1, j1, k1, [] => if k1 ≠ 0 then [(i1, j1, k1)] else []
  | i1, j1, k1, (i2, j2, k2) :: rest =>
    if i1 + k1 = i2 ∧ j1 + k1 = j2 then nonAdjacent i1 j1 (k1 + k2) rest
    else
      (if k1 ≠ 0 then [(i1, j1, k1)] else []) ++ nonAdjacent i2 j2 k2 rest

/-- `get_matching_blocks`: merged blocks plus the final sentinel. -/
def get_matching_blocks (a b : List String) : List Block :=
  nonAdjacent 0 0 0 (mblocksAux a b (a.length + b.length + 1) 0 a.length 0 b.length) ++
    [(a.length, b.length, 0)]

/-- Opcode tags of `get_opcodes`. -/
inductive Tag where
  | replace
  | delete
  | insert
  | equal
  deriving Repr, DecidableEq

/-- One opcode `(tag, i1, i2, j1, j2)`. -/
structure Opcode where
  tag : Tag
  i1 : Nat
  i2 : Nat
  j1 : Nat
  j2 : Nat
  deriving Repr, DecidableEq

/-- The opcode walk of `get_opcodes`, with cursor `(i, j)`. -/
def opcodesAux : Nat → Nat → List Block → List Opcode
  | _, _, [] => []
  | i, j, (ai, bj, size) :: rest =>
    let pre : List Opcode :=
      if i < ai ∧ j < bj then [⟨Tag.replace, i, ai, j, bj⟩]
      else if i < ai then [⟨Tag.delete, i, ai, j, bj⟩]
      else if j < bj then [⟨Tag.insert, i, ai, j, bj⟩]
      else []
    let eq : List Opcode :=
      if size ≠ 0 then [⟨Tag.equal, ai, ai + size, bj, bj + size⟩] else []
    pre ++ eq ++ opcodesAux (ai + size) (bj + size) rest

/-- `get_opcodes` of the matcher over `a`, `b`. -/
def get_opcodes (a b : List String) : List Opcode :=
  opcodesAux 0 0 (get_matching_blocks a b)

/-- The LinePairs `_align_logs` emits for a single opcode.  `equal` zips the
two index ranges; `replace` pads the shorter side with empty text and absent
line number over `max` positions; `delete` and `insert` cover one side. -/
def emitOp (a b : List String) (op : Opcode) : List LinePair :=
  match op.tag with
  | Tag.equal =>
    ((List.range' op.i1 (op.i2 - op.i1)).zip (List.range' op.j1 (op.j2 - op.j1))).map
      (fun sp => ⟨a.getD sp.1 "", b.getD sp.2 "", some (sp.1 + 1), some (sp.2 + 1)⟩)
  | Tag.replace =>
    (List.range (max (op.i2 - op.i1) (op.j2 - op.j1))).map
      (fun off =>
        let s := op.i1 + off
        let p := op.j1 + off
        ⟨if s < op.i2 then a.getD s "" else "",
         if p < op.j2 then b.getD p "" else "",
         if s < op.i2 then some (s + 1) else none,
         if p < op.j2 then some (p + 1) else none⟩)
  | Tag.delete =>
    (List.range' op.i1 (op.i2 - op.i1)).map (fun s => ⟨a.getD s "", "", some (s + 1), none⟩)
  | Tag.insert =>
    (List.range' op.j1 (op.j2 - op.j1)).map (fun p => ⟨"", b.getD p "", none, some (p + 1)⟩)

/-- `_align_logs`: align two line sequences through the matcher's opcodes. -/
def _align_logs (stg_lines prd_lines : List String) : List LinePair :=
  (get_opcodes stg_lines prd_lines).flatMap (emitOp stg_lines prd_lines)

/-! ## Structural invariants of the matching blocks

`Chain i j bs e f` says the block list `bs` is a monotone walk of the two
cursors from `(i, j)` to `(e, f)`: each block starts at or after the current
cursor and moves it to its end. -/

inductive Chain : Nat → Nat → List Block → Nat → Nat → Prop where
  | nil (i j : Nat) : Chain i j [] i j
  | cons {i j ai bj k e f : Nat} {rest : List Block} :
      i ≤ ai → j ≤ bj → Chain (ai + k) (bj + k) rest e f →
      Chain i j ((ai, bj, k) :: rest) e f

theorem Chain.le {i j e f : Nat} {bs : List Block} (h : Chain i j bs e f) :
    i ≤ e ∧ j ≤ f := by
  induction h with
  | nil i j => exact ⟨Nat.le_refl i, Nat.le_refl j⟩
  | cons hia hjb _ ih =>
    exact ⟨Nat.le_trans hia (Nat.le_trans (Nat.le_add_right _ _) ih.1),
           Nat.le_trans hjb (Nat.le_trans (Nat.le_add_right _ _) ih.2)⟩

theorem Chain.append {i j e f g h : Nat} {bs cs : List Block}
    (h1 : Chain i j bs e f) (h2 : Chain e f cs g h) : Chain i j (bs ++ cs) g h := by
  induction h1 with
  | nil i j => exact h2
  | cons hia hjb _ ih => exact Chain.cons hia hjb (ih h2)

theorem kAt_le_left (a b : List String) (ahi bhi i j : Nat) :
    kAt a b ahi bhi i j ≤ ahi - i :=
  Nat.le_trans (Nat.min_le_right _ _) (Nat.min_le_left _ _)

theorem kAt_le_right (a b : List String) (ahi bhi i j : Nat) :
    kAt a b ahi bhi i j ≤ bhi - j :=
  Nat.le_trans (Nat.min_le_right _ _) (Nat.min_le_right _ _)

/-- Window invariant of the `find_longest_match` fold. -/
def InWindow (alo ahi blo bhi : Nat) (r : Block) : Prop :=
  alo ≤ r.1 ∧ blo ≤ r.2.1 ∧ r.1 + r.2.2 ≤ ahi ∧ r.2.1 + r.2.2 ≤ bhi

/-- Whatever `find_longest_match` returns lies inside its window. -/
theorem flm_bounds (a b : List String) (alo ahi blo bhi : Nat)
    (ha : alo ≤ ahi) (hb : blo ≤ bhi) :
    InWindow alo ahi blo bhi (flm a b alo ahi blo bhi) := by
  unfold flm
  apply List.foldlRecOn (motive := InWindow alo ahi blo bhi)
  · refine ⟨Nat.le_refl _, Nat.le_refl _, ?_, ?_⟩
    · show alo + 0 ≤ ahi
      omega
    · show blo + 0 ≤ bhi
      omega
  · intro best hbest i hi
    apply List.foldlRecOn (motive := InWindow alo ahi blo bhi)
    · exact hbest
    · intro best' hbest' j hj
      simp only [List.mem_range'_1] at hi hj
      dsimp only
      split
      · have h1 := kAt_le_left a b ahi bhi i j
        have h2 := kAt_le_right a b ahi bhi i j
        refine ⟨?_, ?_, ?_, ?_⟩
        · show alo ≤ i
          omega
        · show blo ≤ j
          omega
        · show i + kAt a b ahi bhi i j ≤ ahi
          omega
        · show j + kAt a b ahi bhi i j ≤ bhi
          omega
      · exact hbest'

/-- The recursive block decomposition walks the cursors monotonically inside
its window. -/
theorem mblocksAux_chain (a b : List String) (fuel : Nat) :
    ∀ alo ahi blo bhi, alo ≤ ahi → blo ≤ bhi →
      ∃ e f, Chain alo blo (mblocksAux a b fuel alo ahi blo bhi) e f ∧ e ≤ ahi ∧ f ≤ bhi := by
  induction fuel with
  | zero =>
    intro alo ahi blo bhi ha hb
    exact ⟨alo, blo, Chain.nil alo blo, ha, hb⟩
  | succ fuel ih =>
    intro alo ahi blo bhi ha hb
    simp only [mblocksAux]
    obtain ⟨h1, h2, h3, h4⟩ :=
      (flm_bounds a b alo ahi blo bhi ha hb : InWindow alo ahi blo bhi _)
    set r := flm a b alo ahi blo bhi with hr
    by_cases hk : r.2.2 = 0
    · simp only [hk, if_pos]
      exact ⟨alo, blo, Chain.nil alo blo, ha, hb⟩
    · simp only [hk, if_neg, ite_false]
      obtain ⟨e1, f1, hc1, he1, hf1⟩ := ih alo r.1 blo r.2.1 (by omega) (by omega)
      obtain ⟨e2, f2, hc2, he2, hf2⟩ := ih (r.1 + r.2.2) ahi (r.2.1 + r.2.2) bhi h3 h4
      exact ⟨e2, f2, hc1.append (Chain.cons he1 hf1 hc2), he2, hf2⟩

/-- The adjacent-block merge pass preserves the cursor walk. -/
theorem nonAdjacent_chain {bs : List Block} {e f : Nat} :
    ∀ i0 j0 i1 j1 k1, Chain (i1 + k1) (j1 + k1) bs e f → i0 ≤ i1 → j0 ≤ j1 →
      ∃ e' f', Chain i0 j0 (nonAdjacent i1 j1 k1 bs) e' f' ∧ e' ≤ e ∧ f' ≤ f := by
  induction bs with
  | nil =>
    intro i0 j0 i1 j1 k1 h h1 h2
    cases h with
    | nil =>
      by_cases hk : k1 = 0
      · subst hk
        simp only [nonAdjacent, ne_eq, not_true_eq_false, ite_false]
        exact ⟨i0, j0, Chain.nil i0 j0, by omega, by omega⟩
      · simp only [nonAdjacent, ne_eq, hk, not_false_eq_true, ite_true]
        exact ⟨i1 + k1, j1 + k1, Chain.cons h1 h2 (Chain.nil _ _), Nat.le_refl _, Nat.le_refl _⟩
  | cons hd rest ih =>
    intro i0 j0 i1 j1 k1 h h1 h2
    obtain ⟨i2, j2, k2⟩ := hd
    cases h with
    | cons hia hjb hrest =>
      simp only [nonAdjacent]
      by_cases hadj : i1 + k1 = i2 ∧ j1 + k1 = j2
      · simp only [hadj, and_self, if_pos]
        have : Chain (i1 + (k1 + k2)) (j1 + (k1 + k2)) rest e f := by
          have e1 : i1 + (k1 + k2) = i2 + k2 := by omega
          have e2 : j1 + (k1 + k2) = j2 + k2 := by omega
          rw [e1, e2]; exact hrest
        exact ih i0 j0 i1 j1 (k1 + k2) this h1 h2
      · simp only [hadj, if_neg, ite_false]
        by_cases hk : k1 = 0
        · subst hk
          simp only [ne_eq, not_true_eq_false, ite_false, List.nil_append]
          exact ih i0 j0 i2 j2 k2 hrest (by omega) (by omega)
        · simp only [ne_eq, hk, not_false_eq_true, ite_true, List.cons_append, List.nil_append]
          obtain ⟨e', f', hc, he, hf⟩ := ih (i1 + k1) (j1 + k1) i2 j2 k2 hrest hia hjb
          exact ⟨e', f', Chain.cons h1 h2 hc, he, hf⟩

/-- The matching blocks of the full inputs walk the cursors from `(0, 0)` all
the way to `(len a, len b)` (via the sentinel). -/
theorem gmb_chain (a b : List String) :
    Chain 0 0 (get_matching_blocks a b) a.length b.length := by
  unfold get_matching_blocks
  obtain ⟨e, f, hc, he, hf⟩ :=
    mblocksAux_chain a b (a.length + b.length + 1) 0 a.length 0 b.length
      (Nat.zero_le _) (Nat.zero_le _)
  obtain ⟨e', f', hc', he', hf'⟩ :=
    nonAdjacent_chain 0 0 0 0 0 hc (Nat.le_refl 0) (Nat.le_refl 0)
  refine hc'.append (Chain.cons (by omega) (by omega) ?_)
  exact Chain.nil _ _

/-! ## Projections of the alignment onto the two sides -/

/-- The staged side of a pair, when it carries a line number. -/
def stgProj (p : LinePair) : Option (String × Nat) :=
  p.stgNo.map (fun n => (p.stg, n))

/-- The production side of a pair, when it carries a line number. -/
def prdProj (p : LinePair) : Option (String × Nat) :=
  p.prdNo.map (fun n => (p.prd, n))

/-- The lines of `l` at indices `[s, s + n)`, paired with 1-based numbers. -/
def numbered (l : List String) (s n : Nat) : List (String × Nat) :=
  (List.range' s n).map (fun t => (l.getD t "", t + 1))

theorem numbered_append (l : List String) (s n m : Nat) :
    numbered l s n ++ numbered l (s + n) m = numbered l s (n + m) := by
  unfold numbered
  rw [← List.map_append, List.range'_append_1]
  rw [Nat.add_comm m n]

theorem filterMap_all_some {β γ : Type} {l : List β} {g : β → Option γ} {h : β → γ}
    (hs : ∀ x ∈ l, g x = some (h x)) : l.filterMap g = l.map h := by
  induction l with
  | nil => rfl
  | cons x xs ih =>
    rw [List.filterMap_cons, hs x (List.mem_cons_self x xs), List.map_cons,
      ih (fun y hy => hs y (List.mem_cons_of_mem x hy))]

theorem range_split (m n : Nat) (h : m ≤ n) :
    List.range n = List.range m ++ List.range' m (n - m) := by
  rw [List.range_eq_range', List.range_eq_range']
  have e := List.range'_append_1 0 m (n - m)
  rw [Nat.zero_add] at e
  rw [e]
  congr 1
  omega

/-- A filterMap over `range n` whose function is `some ∘ h` below `m` and
`none` from `m` on collapses to a map over `range m`. -/
theorem filterMap_range_eq {γ : Type} (g : Nat → Option γ) (h : Nat → γ) (m n : Nat)
    (hmn : m ≤ n) (hsome : ∀ off, off < m → g off = some (h off))
    (hnone : ∀ off, m ≤ off → g off = none) :
    (List.range n).filterMap g = (List.range m).map h := by
  rw [range_split m n hmn, List.filterMap_append]
  rw [filterMap_all_some (fun x hx => hsome x (List.mem_range.mp hx))]
  have h2 : (List.range' m (n - m)).filterMap g = [] := by
    rw [List.filterMap_eq_nil_iff]
    intro x hx
    rw [List.mem_range'_1] at hx
    exact hnone x hx.1
  rw [h2, List.append_nil]

theorem emit_replace_stg (a b : List String) (i1 i2 j1 j2 : Nat) :
    (emitOp a b ⟨Tag.replace, i1, i2, j1, j2⟩).filterMap stgProj = numbered a i1 (i2 - i1) := by
  unfold emitOp
  dsimp only
  rw [List.filterMap_map]
  rw [filterMap_range_eq _ (fun off => (a.getD (i1 + off) "", i1 + off + 1)) (i2 - i1)
    (max (i2 - i1) (j2 - j1)) (Nat.le_max_left _ _) ?hs ?hn]
  case hs =>
    intro off hoff
    have hlt : i1 + off < i2 := by omega
    simp [stgProj, hlt]
  case hn =>
    intro off hoff
    have hge : ¬ i1 + off < i2 := by omega
    simp [stgProj, hge]
  · unfold numbered
    rw [List.range'_eq_map_range, List.map_map]
    rfl

theorem emit_replace_prd (a b : List String) (i1 i2 j1 j2 : Nat) :
    (emitOp a b ⟨Tag.replace, i1, i2, j1, j2⟩).filterMap prdProj = numbered b j1 (j2 - j1) := by
  unfold emitOp
  dsimp only
  rw [List.filterMap_map]
  rw [filterMap_range_eq _ (fun off => (b.getD (j1 + off) "", j1 + off + 1)) (j2 - j1)
    (max (i2 - i1) (j2 - j1)) (Nat.le_max_right _ _) ?hs ?hn]
  case hs =>
    intro off hoff
    have hlt : j1 + off < j2 := by omega
    simp [prdProj, hlt]
  case hn =>
    intro off hoff
    have hge : ¬ j1 + off < j2 := by omega
    simp [prdProj, hge]
  · unfold numbered
    rw [List.range'_eq_map_range, List.map_map]
    rfl

theorem emit_delete_stg (a b : List String) (i1 i2 j1 j2 : Nat) :
    (emitOp a b ⟨Tag.delete, i1, i2, j1, j2⟩).filterMap stgProj = numbered a i1 (i2 - i1) := by
  unfold emitOp
  dsimp only
  rw [List.filterMap_map]
  rw [filterMap_all_some
    (g := stgProj ∘ fun s => (⟨a.getD s "", "", some (s + 1), none⟩ : LinePair))
    (h := fun s : Nat => (a.getD s "", s + 1)) (fun x _ => rfl)]
  rfl

theorem emit_delete_prd (a b : List String) (i1 i2 j1 j2 : Nat) :
    (emitOp a b ⟨Tag.delete, i1, i2, j1, j2⟩).filterMap prdProj = [] := by
  unfold emitOp
  dsimp only
  rw [List.filterMap_map]
  rw [List.filterMap_eq_nil_iff]
  intro x _
  rfl

theorem emit_insert_stg (a b : List String) (i1 i2 j1 j2 : Nat) :
    (emitOp a b ⟨Tag.insert, i1, i2, j1, j2⟩).filterMap stgProj = [] := by
  unfold emitOp
  dsimp only
  rw [List.filterMap_map]
  rw [List.filterMap_eq_nil_iff]
  intro x _
  rfl

theorem emit_insert_prd (a b : List String) (i1 i2 j1 j2 : Nat) :
    (emitOp a b ⟨Tag.insert, i1, i2, j1, j2⟩).filterMap prdProj = numbered b j1 (j2 - j1) := by
  unfold emitOp
  dsimp only
  rw [List.filterMap_map]
  rw [filterMap_all_some
    (g := prdProj ∘ fun p => (⟨"", b.getD p "", none, some (p + 1)⟩ : LinePair))
    (h := fun p : Nat => (b.getD p "", p + 1)) (fun x _ => rfl)]
  rfl

theorem emit_equal_stg (a b : List String) (ai bj size : Nat) :
    (emitOp a b ⟨Tag.equal, ai, ai + size, bj, bj + size⟩).filterMap stgProj
      = numbered a ai size := by
  unfold emitOp
  dsimp only
  rw [Nat.add_sub_cancel_left, Nat.add_sub_cancel_left]
  rw [List.filterMap_map]
  rw [filterMap_all_some
    (g := stgProj ∘ fun sp : Nat × Nat =>
      (⟨a.getD sp.1 "", b.getD sp.2 "", some (sp.1 + 1), some (sp.2 + 1)⟩ : LinePair))
    (h := fun sp : Nat × Nat => (a.getD sp.1 "", sp.1 + 1)) (fun x _ => rfl)]
  have hz : ((List.range' ai size).zip (List.range' bj size)).map Prod.fst
      = List.range' ai size :=
    List.map_fst_zip _ _ (by simp)
  calc ((List.range' ai size).zip (List.range' bj size)).map
        (fun sp : Nat × Nat => (a.getD sp.1 "", sp.1 + 1))
      = (((List.range' ai size).zip (List.range' bj size)).map Prod.fst).map
          (fun t => (a.getD t "", t + 1)) := by rw [List.map_map]; rfl
    _ = numbered a ai size := by rw [hz]; rfl

theorem emit_equal_prd (a b : List String) (ai bj size : Nat) :
    (emitOp a b ⟨Tag.equal, ai, ai + size, bj, bj + size⟩).filterMap prdProj
      = numbered b bj size := by
  unfold emitOp
  dsimp only
  rw [Nat.add_sub_cancel_left, Nat.add_sub_cancel_left]
  rw [List.filterMap_map]
  rw [filterMap_all_some
    (g := prdProj ∘ fun sp : Nat × Nat =>
      (⟨a.getD sp.1 "", b.getD sp.2 "", some (sp.1 + 1), some (sp.2 + 1)⟩ : LinePair))
    (h := fun sp : Nat × Nat => (b.getD sp.2 "", sp.2 + 1)) (fun x _ => rfl)]
  have hz : ((List.range' ai size).zip (List.range' bj size)).map Prod.snd
      = List.range' bj size :=
    List.map_snd_zip _ _ (by simp)
  calc ((List.range' ai size).zip (List.range' bj size)).map
        (fun sp : Nat × Nat => (b.getD sp.2 "", sp.2 + 1))
      = (((List.range' ai size).zip (List.range' bj size)).map Prod.snd).map
          (fun t => (b.getD t "", t + 1)) := by rw [List.map_map]; rfl
    _ = numbered b bj size := by rw [hz]; rfl

/-- Walking a chained block list emits, on the staged side, exactly the
source lines between the start cursor and the end cursor. -/
theorem opcodesAux_stg (a b : List String) :
    ∀ (bs : List Block) (i j e f : Nat), Chain i j bs e f →
      ((opcodesAux i j bs).flatMap (emitOp a b)).filterMap stgProj = numbered a i (e - i) := by
  intro bs
  induction bs with
  | nil =>
    intro i j e f h
    cases h
    simp [numbered, opcodesAux]
  | cons hd rest ih =>
    intro i j e f h
    obtain ⟨ai, bj, k⟩ := hd
    cases h with
    | cons hia hjb hrest =>
      have hend : ai + k ≤ e := hrest.le.1
      simp only [opcodesAux]
      rw [List.flatMap_append, List.flatMap_append, List.filterMap_append,
        List.filterMap_append]
      have hpre : ((if i < ai ∧ j < bj then [(⟨Tag.replace, i, ai, j, bj⟩ : Opcode)]
            else if i < ai then [⟨Tag.delete, i, ai, j, bj⟩]
            else if j < bj then [⟨Tag.insert, i, ai, j, bj⟩]
            else []).flatMap (emitOp a b)).filterMap stgProj = numbered a i (ai - i) := by
        by_cases h1 : i < ai ∧ j < bj
        · rw [if_pos h1]
          simp only [List.flatMap_cons, List.flatMap_nil, List.append_nil]
          exact emit_replace_stg a b i ai j bj
        · rw [if_neg h1]
          by_cases h2 : i < ai
          · rw [if_pos h2]
            simp only [List.flatMap_cons, List.flatMap_nil, List.append_nil]
            exact emit_delete_stg a b i ai j bj
          · rw [if_neg h2]
            have hai : ai - i = 0 := by omega
            rw [hai]
            by_cases h3 : j < bj
            · rw [if_pos h3]
              simp only [List.flatMap_cons, List.flatMap_nil, List.append_nil]
              rw [emit_insert_stg a b i ai j bj]
              rfl
            · rw [if_neg h3]
              rfl
      have heq : ((if k ≠ 0 then [(⟨Tag.equal, ai, ai + k, bj, bj + k⟩ : Opcode)]
            else []).flatMap (emitOp a b)).filterMap stgProj = numbered a ai k := by
        by_cases hk : k = 0
        · subst hk
          simp only [ne_eq, not_true_eq_false, ite_false]
          rfl
        · simp only [ne_eq, hk, not_false_eq_true, ite_true, List.flatMap_cons,
            List.flatMap_nil, List.append_nil]
          exact emit_equal_stg a b ai bj k
      rw [hpre, heq, ih (ai + k) (bj + k) e f hrest]
      have e2 := numbered_append a ai k (e - (ai + k))
      rw [show k + (e - (ai + k)) = e - ai from by omega] at e2
      rw [List.append_assoc, e2]
      have e3 := numbered_append a i (ai - i) (e - ai)
      rw [show i + (ai - i) = ai from by omega,
        show ai - i + (e - ai) = e - i from by omega] at e3
      exact e3

/-- Walking a chained block list emits, on the production side, exactly the
source lines between the start cursor and the end cursor. -/
theorem opcodesAux_prd (a b : List String) :
    ∀ (bs : List Block) (i j e f : Nat), Chain i j bs e f →
      ((opcodesAux i j bs).flatMap (emitOp a b)).filterMap prdProj = numbered b j (f - j) := by
  intro bs
  induction bs with
  | nil =>
    intro i j e f h
    cases h
    simp [numbered, opcodesAux]
  | cons hd rest ih =>
    intro i j e f h
    obtain ⟨ai, bj, k⟩ := hd
    cases h with
    | cons hia hjb hrest =>
      have hend : bj + k ≤ f := hrest.le.2
      simp only [opcodesAux]
      rw [List.flatMap_append, List.flatMap_append, List.filterMap_append,
        List.filterMap_append]
      have hpre : ((if i < ai ∧ j < bj then [(⟨Tag.replace, i, ai, j, bj⟩ : Opcode)]
            else if i < ai then [⟨Tag.delete, i, ai, j, bj⟩]
            else if j < bj then [⟨Tag.insert, i, ai, j, bj⟩]
            else []).flatMap (emitOp a b)).filterMap prdProj = numbered b j (bj - j) := by
        by_cases h1 : i < ai ∧ j < bj
        · rw [if_pos h1]
          simp only [List.flatMap_cons, List.flatMap_nil, List.append_nil]
          exact emit_replace_prd a b i ai j bj
        · rw [if_neg h1]
          by_cases h2 : i < ai
          · rw [if_pos h2]
            simp only [List.flatMap_cons, List.flatMap_nil, List.append_nil]
            have hbj : bj - j = 0 := by omega
            rw [hbj, emit_delete_prd a b i ai j bj]
            rfl
          · rw [if_neg h2]
            by_cases h3 : j < bj
            · rw [if_pos h3]
              simp only [List.flatMap_cons, List.flatMap_nil, List.append_nil]
              exact emit_insert_prd a b i ai j bj
            · rw [if_neg h3]
              have hbj : bj - j = 0 := by omega
              rw [hbj]
              rfl
      have heq : ((if k ≠ 0 then [(⟨Tag.equal, ai, ai + k, bj, bj + k⟩ : Opcode)]
            else []).flatMap (emitOp a b)).filterMap prdProj = numbered b bj k := by
        by_cases hk : k = 0
        · subst hk
          simp only [ne_eq, not_true_eq_false, ite_false]
          rfl
        · simp only [ne_eq, hk, not_false_eq_true, ite_true, List.flatMap_cons,
            List.flatMap_nil, List.append_nil]
          exact emit_equal_prd a b ai bj k
      rw [hpre, heq, ih (ai + k) (bj + k) e f hrest]
      have e2 := numbered_append b bj k (f - (bj + k))
      rw [show k + (f - (bj + k)) = f - bj from by omega] at e2
      rw [List.append_assoc, e2]
      have e3 := numbered_append b j (bj - j) (f - bj)
      rw [show j + (bj - j) = bj from by omega,
        show bj - j + (f - bj) = f - j from by omega] at e3
      exact e3

theorem map_getD_range (l : List String) :
    (List.range l.length).map (fun t => l.getD t "") = l := by
  refine List.ext_getElem (by simp) ?_
  intro i h1 h2
  simp only [List.getElem_map, List.getElem_range]
  rw [List.getD_eq_getElem?_getD, List.getElem?_eq_getElem h2]
  rfl

/-- The staged projection of the full alignment. -/
theorem align_stg (a b : List String) :
    (_align_logs a b).filterMap stgProj
      = (List.range a.length).map (fun t => (a.getD t "", t + 1)) := by
  have h := opcodesAux_stg a b (get_matching_blocks a b) 0 0 a.length b.length (gmb_chain a b)
  rw [_align_logs, get_opcodes, h, Nat.sub_zero]
  rw [numbered, List.range_eq_range']

/-- The production projection of the full alignment. -/
theorem align_prd (a b : List String) :
    (_align_logs a b).filterMap prdProj
      = (List.range b.length).map (fun t => (b.getD t "", t + 1)) := by
  have h := opcodesAux_prd a b (get_matching_blocks a b) 0 0 a.length b.length (gmb_chain a b)
  rw [_align_logs, get_opcodes, h, Nat.sub_zero]
  rw [numbered, List.range_eq_range']

/-! ## Per-pair invariants -/

/-- Shape constraints every emitted opcode satisfies. -/
def OpWF (la lb : Nat) (op : Opcode) : Prop :=
  op.i1 ≤ op.i2 ∧ op.j1 ≤ op.j2 ∧ op.i2 ≤ la ∧ op.j2 ≤ lb ∧
    (op.tag = Tag.delete → op.j1 = op.j2) ∧
    (op.tag = Tag.insert → op.i1 = op.i2) ∧
    (op.tag = Tag.replace → op.i1 < op.i2 ∧ op.j1 < op.j2)

/-- Every opcode of a chained block walk is well formed. -/
theorem opcodesAux_wf {la lb : Nat} :
    ∀ (bs : List Block) (i j e f : Nat), Chain i j bs e f → e ≤ la → f ≤ lb →
      ∀ op ∈ opcodesAux i j bs, OpWF la lb op := by
  intro bs
  induction bs with
  | nil =>
    intro i j e f h hla hlb op hop
    simp [opcodesAux] at hop
  | cons hd rest ih =>
    intro i j e f h hla hlb op hop
    obtain ⟨ai, bj, k⟩ := hd
    cases h with
    | cons hia hjb hrest =>
      have hende : ai + k ≤ e := hrest.le.1
      have hendf : bj + k ≤ f := hrest.le.2
      simp only [opcodesAux, List.mem_append] at hop
      rcases hop with (hop | hop) | hop
      · by_cases h1 : i < ai ∧ j < bj
        · rw [if_pos h1] at hop
          simp only [List.mem_singleton] at hop
          subst hop
          unfold OpWF
          dsimp only
          refine ⟨by omega, by omega, by omega, by omega, ?_, ?_, ?_⟩
          · intro ht
            exact absurd ht (by decide)
          · intro ht
            exact absurd ht (by decide)
          · intro ht
            exact ⟨h1.1, h1.2⟩
        · rw [if_neg h1] at hop
          by_cases h2 : i < ai
          · rw [if_pos h2] at hop
            simp only [List.mem_singleton] at hop
            subst hop
            unfold OpWF
            dsimp only
            refine ⟨by omega, by omega, by omega, by omega, ?_, ?_, ?_⟩
            · intro ht
              omega
            · intro ht
              exact absurd ht (by decide)
            · intro ht
              exact absurd ht (by decide)
          · rw [if_neg h2] at hop
            by_cases h3 : j < bj
            · rw [if_pos h3] at hop
              simp only [List.mem_singleton] at hop
              subst hop
              unfold OpWF
              dsimp only
              refine ⟨by omega, by omega, by omega, by omega, ?_, ?_, ?_⟩
              · intro ht
                exact absurd ht (by decide)
              · intro ht
                omega
              · intro ht
                exact absurd ht (by decide)
            · rw [if_neg h3] at hop
              simp at hop
      · by_cases hk : k = 0
        · subst hk
          simp at hop
        · simp only [ne_eq, hk, not_false_eq_true, ite_true, List.mem_singleton] at hop
          subst hop
          unfold OpWF
          dsimp only
          refine ⟨by omega, by omega, by omega, by omega, ?_, ?_, ?_⟩
          · intro ht
            exact absurd ht (by decide)
          · intro ht
            exact absurd ht (by decide)
          · intro ht
            exact absurd ht (by decide)
      · exact ih (ai + k) (bj + k) e f hrest hla hlb op hop

/-- What the staged side of one LinePair can look like: a real 1-based line
number with that source line's text, or an absent number with empty text. -/
def stgOk (a : List String) (p : LinePair) : Prop :=
  match p.stgNo with
  | some n => 1 ≤ n ∧ n ≤ a.length ∧ p.stg = a.getD (n - 1) ""
  | none => p.stg = ""

/-- Production-side counterpart of `stgOk`. -/
def prdOk (b : List String) (p : LinePair) : Prop :=
  match p.prdNo with
  | some n => 1 ≤ n ∧ n ≤ b.length ∧ p.prd = b.getD (n - 1) ""
  | none => p.prd = ""

theorem emitOp_pairs_ok (a b : List String) (op : Opcode)
    (hwf : OpWF a.length b.length op) :
    ∀ p ∈ emitOp a b op, stgOk a p ∧ prdOk b p ∧ (p.stgNo ≠ none ∨ p.prdNo ≠ none) := by
  obtain ⟨h1, h2, h3, h4, hdel, hins, hrep⟩ := hwf
  intro p hp
  match htag : op.tag with
  | Tag.equal =>
    rw [emitOp, htag] at hp
    obtain ⟨sp, hsp, rfl⟩ := List.mem_map.mp hp
    have hmem := List.of_mem_zip hsp
    rw [List.mem_range'_1] at hmem
    obtain ⟨⟨hs1, hs2⟩, hq⟩ := hmem
    rw [List.mem_range'_1] at hq
    refine ⟨⟨by omega, by omega, by simp⟩, ⟨by omega, by omega, by simp⟩, by simp⟩
  | Tag.replace =>
    rw [emitOp, htag] at hp
    obtain ⟨off, hoff, rfl⟩ := List.mem_map.mp hp
    rw [List.mem_range] at hoff
    refine ⟨?_, ?_, ?_⟩
    · by_cases hs : op.i1 + off < op.i2
      · simp only [stgOk, hs, ite_true]
        exact ⟨by omega, by omega, by simp⟩
      · simp only [stgOk, hs, ite_false]
    · by_cases hq : op.j1 + off < op.j2
      · simp only [prdOk, hq, ite_true]
        exact ⟨by omega, by omega, by simp⟩
      · simp only [prdOk, hq, ite_false]
    · rcases lt_max_iff.mp hoff with hlt | hlt
      · left
        have hs : op.i1 + off < op.i2 := by omega
        simp [hs]
      · right
        have hq : op.j1 + off < op.j2 := by omega
        simp [hq]
  | Tag.delete =>
    rw [emitOp, htag] at hp
    obtain ⟨s, hs, rfl⟩ := List.mem_map.mp hp
    rw [List.mem_range'_1] at hs
    exact ⟨⟨by omega, by omega, by simp⟩, by simp [prdOk], by simp⟩
  | Tag.insert =>
    rw [emitOp, htag] at hp
    obtain ⟨q, hq, rfl⟩ := List.mem_map.mp hp
    rw [List.mem_range'_1] at hq
    exact ⟨by simp [stgOk], ⟨by omega, by omega, by simp⟩, by simp⟩

/-- Every pair of the alignment is well formed. -/
theorem align_pairs_ok (a b : List String) :
    ∀ p ∈ _align_logs a b, stgOk a p ∧ prdOk b p ∧ (p.stgNo ≠ none ∨ p.prdNo ≠ none) := by
  intro p hp
  rw [_align_logs, List.mem_flatMap] at hp
  obtain ⟨op, hop, hpop⟩ := hp
  have hwf := opcodesAux_wf (get_matching_blocks a b) 0 0 a.length b.length
    (gmb_chain a b) (Nat.le_refl _) (Nat.le_refl _) op hop
  exact emitOp_pairs_ok a b op hwf p hpop

/-! ## Aligning a sequence against itself -/

theorem runLen_self (l : List String) : runLen l l = l.length := by
  induction l with
  | nil => rfl
  | cons x xs ih => simp [runLen, ih]

/-- Once the running best reaches a size no candidate beats, the inner fold
of `find_longest_match` leaves it unchanged. -/
theorem flm_inner_const (a b : List String) (ahi bhi i : Nat) (best : Block)
    (lj : List Nat) (h : ∀ j ∈ lj, kAt a b ahi bhi i j ≤ best.2.2) :
    lj.foldl
      (fun best j =>
        let k := kAt a b ahi bhi i j
        if best.2.2 < k then (i, j, k) else best)
      best = best := by
  induction lj with
  | nil => rfl
  | cons j js ih =>
    have hj := h j (List.mem_cons_self j js)
    simp only [List.foldl_cons]
    have hnot : ¬ best.2.2 < kAt a b ahi bhi i j := by omega
    rw [if_neg hnot]
    exact ih (fun y hy => h y (List.mem_cons_of_mem j hy))

/-- Outer-fold version of `flm_inner_const`. -/
theorem flm_outer_const (a b : List String) (ahi bhi : Nat) (lj : List Nat) (best : Block)
    (li : List Nat)
    (h : ∀ x ∈ li, ∀ j ∈ lj, kAt a b ahi bhi x j ≤ best.2.2) :
    li.foldl
      (fun best i =>
        lj.foldl
          (fun best j =>
            let k := kAt a b ahi bhi i j
            if best.2.2 < k then (i, j, k) else best)
          best)
      best = best := by
  induction li with
  | nil => rfl
  | cons x xs ih =>
    simp only [List.foldl_cons]
    rw [flm_inner_const a b ahi bhi x best lj (h x (List.mem_cons_self x xs))]
    exact ih (fun y hy => h y (List.mem_cons_of_mem x hy))

/-- On identical inputs the longest match is the whole sequence. -/
theorem flm_self (a : List String) (n : Nat) (hn : a.length = n) (h1 : 1 ≤ n) :
    flm a a 0 n 0 n = (0, 0, n) := by
  unfold flm
  simp only [Nat.sub_zero]
  obtain ⟨m, rfl⟩ : ∃ m, n = m + 1 := ⟨n - 1, by omega⟩
  rw [List.range'_succ, List.foldl_cons, List.foldl_cons]
  have hk0 : kAt a a (m + 1) (m + 1) 0 0 = m + 1 := by
    unfold kAt
    simp [runLen_self, hn]
  rw [hk0]
  have hfirst : ((0 : Nat), (0 : Nat), (0 : Nat)).2.2 < m + 1 := Nat.succ_pos m
  rw [if_pos hfirst]
  have hbound : ∀ x j : Nat, kAt a a (m + 1) (m + 1) x j ≤ m + 1 := by
    intro x j
    have := kAt_le_left a a (m + 1) (m + 1) x j
    omega
  rw [flm_inner_const a a (m + 1) (m + 1) 0 (0, 0, m + 1) _ (fun j _ => hbound 0 j)]
  rw [flm_outer_const a a (m + 1) (m + 1) (0 :: List.range' (0 + 1) m) (0, 0, m + 1) _
    (fun x _ j _ => hbound x j)]

/-- An empty `a`-window produces no blocks. -/
theorem mblocksAux_empty (a b : List String) (fuel x y z : Nat) :
    mblocksAux a b fuel x x y z = [] := by
  cases fuel with
  | zero => rfl
  | succ fuel =>
    have hflm : flm a b x x y z = (x, y, 0) := by
      unfold flm
      rw [Nat.sub_self, List.range'_zero, List.foldl_nil]
    simp only [mblocksAux, hflm]
    simp

/-- On identical non-empty inputs the block decomposition is one whole-length
block. -/
theorem mblocksAux_self (a : List String) (fuel n : Nat) (hn : a.length = n)
    (h1 : 1 ≤ n) : mblocksAux a a (fuel + 1) 0 n 0 n = [(0, 0, n)] := by
  simp only [mblocksAux, flm_self a n hn h1]
  have hne : ¬ n = 0 := by omega
  simp only [hne, ite_false]
  rw [mblocksAux_empty]
  simp only [Nat.zero_add]
  rw [mblocksAux_empty]
  rfl

theorem zip_self {β : Type} (l : List β) : l.zip l = l.map (fun x => (x, x)) := by
  induction l with
  | nil => rfl
  | cons x xs ih => simp [ih]

/-- Aligning a sequence with itself gives one matched pair per line, in
order, with both line numbers equal to the 1-based position. -/
theorem align_self (a : List String) :
    _align_logs a a = (List.range a.length).map
      (fun t => (⟨a.getD t "", a.getD t "", some (t + 1), some (t + 1)⟩ : LinePair)) := by
  by_cases h0 : a.length = 0
  · rw [List.length_eq_zero.mp h0]
    rfl
  · have h1 : 1 ≤ a.length := by omega
    unfold _align_logs get_opcodes get_matching_blocks
    have hfuel : a.length + a.length + 1 = (a.length + a.length) + 1 := rfl
    rw [hfuel, mblocksAux_self a (a.length + a.length) a.length rfl h1]
    have hna : nonAdjacent 0 0 0 [(0, 0, a.length)] = [(0, 0, a.length)] := by
      simp only [nonAdjacent, Nat.add_zero, Nat.zero_add, and_self, if_pos]
      simp [h0]
    rw [hna]
    simp only [opcodesAux]
    have hlt : ¬ (0 < 0) := by omega
    have hlt2 : ¬ (a.length < a.length) := by omega
    simp only [hlt, and_self, ite_false, false_and, and_false, hlt2, ne_eq, h0,
      not_false_eq_true, ite_true, not_true_eq_false, List.nil_append, List.append_nil,
      List.flatMap_cons, List.flatMap_nil]
    simp only [Nat.zero_add, hlt2, ite_false, List.append_nil, List.flatMap_cons,
      List.flatMap_nil]
    simp only [emitOp, Nat.sub_zero]
    rw [zip_self, List.map_map, List.range_eq_range']
    rfl

/-! ## The shape of one replace run -/

/-- The alignment splits around the emission of any of its opcodes. -/
theorem align_decomp (a b : List String) (op : Opcode) (h : op ∈ get_opcodes a b) :
    ∃ l1 l2, _align_logs a b = l1 ++ emitOp a b op ++ l2 := by
  obtain ⟨s, t, hst⟩ := List.append_of_mem h
  refine ⟨s.flatMap (emitOp a b), t.flatMap (emitOp a b), ?_⟩
  rw [_align_logs, hst, List.flatMap_append, List.flatMap_cons, ← List.append_assoc]

/-- A replace opcode emits `max` pairs, padding the shorter side with empty
text and an absent line number. -/
theorem emit_replace_shape (a b : List String) (op : Opcode) (htag : op.tag = Tag.replace) :
    (emitOp a b op).length = max (op.i2 - op.i1) (op.j2 - op.j1) ∧
    ∀ off, off < max (op.i2 - op.i1) (op.j2 - op.j1) →
      (emitOp a b op).getD off ⟨"", "", none, none⟩ =
        ⟨if op.i1 + off < op.i2 then a.getD (op.i1 + off) "" else "",
         if op.j1 + off < op.j2 then b.getD (op.j1 + off) "" else "",
         if op.i1 + off < op.i2 then some (op.i1 + off + 1) else none,
         if op.j1 + off < op.j2 then some (op.j1 + off + 1) else none⟩ := by
  obtain ⟨tg, i1, i2, j1, j2⟩ := op
  dsimp only at htag
  subst htag
  constructor
  · simp [emitOp]
  · intro off hoff
    simp only [emitOp]
    rw [List.getD_eq_getElem?_getD, List.getElem?_map, List.getElem?_range hoff]
    rfl

/-! ## Claim theorems for the sequence aligner -/

/-- C2: every `replace` opcode of the alignment, covering `ia = i2 - i1`
staged lines and `ib = j2 - j1` production lines, makes `_align_logs` emit
exactly `max ia ib` LinePairs for that run; positions beyond the shorter side
carry empty text and no line number on that side, positions within both sides
carry the source texts with their 1-based line numbers; the run's pairs
appear as a contiguous segment of the alignment. -/
theorem replace_run_emits_max_padded (a b : List String) (op : Opcode)
    (hmem : op ∈ get_opcodes a b) (htag : op.tag = Tag.replace) :
    (emitOp a b op).length = max (op.i2 - op.i1) (op.j2 - op.j1) ∧
    (∀ off, off < max (op.i2 - op.i1) (op.j2 - op.j1) →
      (emitOp a b op).getD off ⟨"", "", none, none⟩ =
        ⟨if op.i1 + off < op.i2 then a.getD (op.i1 + off) "" else "",
         if op.j1 + off < op.j2 then b.getD (op.j1 + off) "" else "",
         if op.i1 + off < op.i2 then some (op.i1 + off + 1) else none,
         if op.j1 + off < op.j2 then some (op.j1 + off + 1) else none⟩) ∧
    ∃ l1 l2, _align_logs a b = l1 ++ emitOp a b op ++ l2 :=
  ⟨(emit_replace_shape a b op htag).1, (emit_replace_shape a b op htag).2,
    align_decomp a b op hmem⟩

/-- Witness for C2 at a concrete replace run: aligning `["x", "y"]` with
`["z"]` produces the replace opcode `(0, 2, 0, 1)`, which emits
`max 2 1 = 2` pairs. -/
theorem replace_run_emits_max_padded_witness :
    (⟨Tag.replace, 0, 2, 0, 1⟩ : Opcode) ∈ get_opcodes ["x", "y"] ["z"] ∧
    (emitOp ["x", "y"] ["z"] ⟨Tag.replace, 0, 2, 0, 1⟩).length = max (2 - 0) (1 - 0) := by
  have hmem : (⟨Tag.replace, 0, 2, 0, 1⟩ : Opcode) ∈ get_opcodes ["x", "y"] ["z"] := by
    decide
  exact ⟨hmem, (replace_run_emits_max_padded ["x", "y"] ["z"] _ hmem rfl).1⟩

/-- C6 counterexample: with staged input `[""]` (one empty line) and empty
production input — not both inputs empty — the single emitted pair has both
texts equal to the empty string. -/
theorem align_pair_both_texts_empty :
    ([""] : List String) ≠ [] ∧
    _align_logs [""] [] = [⟨"", "", some 1, none⟩] ∧
    ¬ (∀ p ∈ _align_logs [""] [], p.stg ≠ "" ∨ p.prd ≠ "") := by
  decide

/-- C6 (amended): unconditionally, every emitted pair has a side's line
number present exactly when that side contributed an actual source line
(present: 1-based, in range, with that line's text; absent: empty text), and
at least one side of every pair is present; in addition, when every source
line of both inputs is non-empty, every emitted pair has at least one
non-empty text. -/
theorem align_pair_invariant (a b : List String) :
    (∀ p ∈ _align_logs a b,
      stgOk a p ∧ prdOk b p ∧ (p.stgNo ≠ none ∨ p.prdNo ≠ none)) ∧
    ((∀ l ∈ a, l ≠ "") → (∀ l ∈ b, l ≠ "") →
      ∀ p ∈ _align_logs a b, p.stg ≠ "" ∨ p.prd ≠ "") := by
  refine ⟨align_pairs_ok a b, ?_⟩
  intro ha hb p hp
  obtain ⟨hs, hq, hpres⟩ := align_pairs_ok a b p hp
  rcases hpres with h | h
  · left
    unfold stgOk at hs
    split at hs
    · obtain ⟨h1, h2, h3⟩ := hs
      rw [h3]
      apply ha
      rw [List.getD_eq_getElem?_getD, List.getElem?_eq_getElem (by omega)]
      exact List.getElem_mem _
    · exact absurd (by assumption) h
  · right
    unfold prdOk at hq
    split at hq
    · obtain ⟨h1, h2, h3⟩ := hq
      rw [h3]
      apply hb
      rw [List.getD_eq_getElem?_getD, List.getElem?_eq_getElem (by omega)]
      exact List.getElem_mem _
    · exact absurd (by assumption) h

/-- Witness for the amended C6 at a concrete input. -/
theorem align_pair_invariant_witness :
    (∀ p ∈ _align_logs ["a", "b"] ["a"],
      stgOk ["a", "b"] p ∧ prdOk ["a"] p ∧ (p.stgNo ≠ none ∨ p.prdNo ≠ none)) ∧
    (∀ l ∈ (["a", "b"] : List String), l ≠ "") ∧
    (∀ p ∈ _align_logs ["a", "b"] ["a"], p.stg ≠ "" ∨ p.prd ≠ "") :=
  ⟨(align_pair_invariant ["a", "b"] ["a"]).1, by decide,
   (align_pair_invariant ["a", "b"] ["a"]).2 (by decide) (by decide)⟩

/-- C7: aligning a sequence with itself yields `len a` LinePairs, each with
equal staged and production texts and both line numbers set to the pair's
1-based position. -/
theorem align_self_matches (a : List String) :
    _align_logs a a = (List.range a.length).map
      (fun t => (⟨a.getD t "", a.getD t "", some (t + 1), some (t + 1)⟩ : LinePair)) :=
  align_self a

/-- C10: projecting the alignment onto the pairs whose staged line number is
present yields, in order, exactly the lines of `a` numbered `1..len a`;
symmetrically for the production side and `b`. -/
theorem align_projections (a b : List String) :
    (_align_logs a b).filterMap stgProj
        = (List.range a.length).map (fun t => (a.getD t "", t + 1)) ∧
    ((_align_logs a b).filterMap stgProj).map Prod.fst = a ∧
    (_align_logs a b).filterMap prdProj
        = (List.range b.length).map (fun t => (b.getD t "", t + 1)) ∧
    ((_align_logs a b).filterMap prdProj).map Prod.fst = b := by
  refine ⟨align_stg a b, ?_, align_prd a b, ?_⟩
  · rw [align_stg, List.map_map]
    exact map_getD_range a
  · rw [align_prd, List.map_map]
    exact map_getD_range b

/-! ## XLSX cell model (src/xlsx_writer.py)

`CellValue` and `SheetData` mirror the dataclasses.  Python code tests the
optional string fields for truthiness, where both `None` and `""` are falsy;
`strOptTruthy` models that test. -/

/-- Truthiness of a Python `str | None` value. -/
def strOptTruthy : Option String → Bool
  | none => false
  | some s => !s.isEmpty

/-- One spreadsheet cell: cached text, optional formula, optional type hint. -/
structure CellValue where
  value : String := ""
  formula : Option String := none
  data_type : Option String := none
  deriving Repr, DecidableEq

instance : Inhabited CellValue := ⟨{}⟩

/-- One sheet: a name and a grid of cells. -/
structure SheetData where
  name : String
  rows : List (List CellValue)
  deriving Repr, DecidableEq

/-- Divide-by-26 loop of `_column_letter`, driven by fuel so that it
evaluates by reduction; `fuel ≥ n` always suffices since the argument
strictly decreases. -/
def _column_letter_aux : Nat → Nat → List Char
  | _, 0 => []
  | 0, _ + 1 => []
  | fuel + 1, n + 1 => _column_letter_aux fuel (n / 26) ++ [Char.ofNat (65 + n % 26)]

/-- `_column_letter`: 1-based column index to Excel letters (bijective
base 26).  The source raises for index < 1; that branch is never reached by
the writer, and index 0 here gives the empty string. -/
def _column_letter (n : Nat) : List Char :=
  _column_letter_aux n n

/-- Decimal digit characters of `n` (fuel-driven; `natChars n` is exact for
every `n ≥ 1`, and the callers below only format positive numbers). -/
def natCharsAux : Nat → Nat → List Char
  | _, 0 => []
  | 0, _ => []
  | fuel + 1, n + 1 =>
    natCharsAux fuel ((n + 1) / 10) ++ [Char.ofNat (48 + (n + 1) % 10)]

/-- Decimal representation of `n` (for `n ≥ 1`), as in Python's `f"{n}"`. -/
def natChars (n : Nat) : List Char :=
  natCharsAux n n

/-! ## Sheet XML, at the parsed-tree level

`_build_sheet_xml` emits worksheet XML text and `_parse_sheet_rows` reads it
back through ElementTree.  The XML layer is modelled at the level of the
element tree the two sides exchange: a list of `<row>` elements, each a list
of `<c>` elements with their `r`/`t` attributes and `<f>`/`<v>`/`<is><t>`
child texts.  Text escaping (`xml.sax.saxutils.escape`, the `&#10;` newline
entity, `xml:space="preserve"`) round-trips through the XML parser and is
the identity at this level. -/

/-- One `<c>` cell element. -/
structure XmlCell where
  ref : List Char
  t : Option String := none
  f : Option String := none
  v : Option String := none
  ist : Option String := none
  deriving Repr, DecidableEq

/-- One `<row>` element. -/
structure XmlRow where
  cells : List XmlCell
  deriving Repr, DecidableEq

/-- Python's `cell.value or cell.formula` content test. -/
def cellHasContent (c : CellValue) : Bool :=
  !c.value.isEmpty || strOptTruthy c.formula

/-- The `<c>` element `_build_sheet_xml` writes for one non-empty cell: a
formula cell carries its optional type attribute, its formula and its cached
value when non-empty; any other cell is written as an inline string. -/
def buildCellXml (rowIndex colIndex : Nat) (c : CellValue) : XmlCell :=
  if strOptTruthy c.formula then
    { ref := _column_letter colIndex ++ natChars rowIndex
      t := if strOptTruthy c.data_type then c.data_type else none
      f := c.formula
      v := if c.value.isEmpty then none else some c.value
      ist := none }
  else
    { ref := _column_letter colIndex ++ natChars rowIndex
      t := some "inlineStr"
      f := none
      v := none
      ist := some c.value }

/-- The `<row>` element written for one row at 1-based row index `q`: an
empty self-closing `<row/>` when the row has no content, else the
content-bearing cells with their 1-based references. -/
def buildRowXml (q : Nat) (row : List CellValue) : XmlRow :=
  if row.any cellHasContent then
    ⟨row.enum.filterMap (fun cc =>
      if cellHasContent cc.2 then some (buildCellXml q (cc.1 + 1) cc.2)
      else none)⟩
  else ⟨[]⟩

/-- `_build_sheet_xml`, one `<row>` element per row of the sheet. -/
def _build_sheet_xml (sheet : SheetData) : List XmlRow :=
  sheet.rows.enum.map (fun rc => buildRowXml (rc.1 + 1) rc.2)

/-- `_column_index_from_ref`: keep the letters of the reference and read them
as bijective base 26. -/
def _column_index_from_ref (ref : List Char) : Nat :=
  (ref.filter (fun ch => ch.isAlpha)).foldl
    (fun idx ch => idx * 26 + (ch.toUpper.toNat - 65 + 1)) 0

/-- A non-empty run of decimal digits read as a number; anything else is a
parse failure. -/
def decDigits (ds : List Char) : Option Nat :=
  if ds.isEmpty then none
  else ds.foldl (fun acc c => acc.bind (fun n =>
    if c.isDigit then some (n * 10 + (c.toNat - 48)) else none)) (some 0)

/-- Python `int()` on a string: optional surrounding whitespace, an optional
sign, then at least one decimal digit; anything else raises `ValueError`.
(Underscore digit grouping and non-ASCII digits also parse in Python; no
input this development reasons about uses them.) -/
def pyInt (s : String) : Option Int :=
  let trimmed := ((s.toList.dropWhile Char.isWhitespace).reverse.dropWhile
    Char.isWhitespace).reverse
  match trimmed with
  | '-' :: ds => (decDigits ds).map (fun n => -(n : Int))
  | '+' :: ds => (decDigits ds).map (fun n => (n : Int))
  | ds => (decDigits ds).map (fun n => (n : Int))

/-- The text `_parse_sheet_rows` reads for one cell: a shared-string lookup
for `t="s"` — where `int(value_node.text or "0")` raises `ValueError` on a
non-numeric index — the inline text for `t="inlineStr"`, else the raw `<v>`
text. -/
def parsedText (shared : List String) (c : XmlCell) : Except String String :=
  if c.t = some "s" then
    match c.v with
    | some vs =>
      match pyInt (if vs.isEmpty then "0" else vs) with
      | none => Except.error ("invalid literal for int() with base 10: '" ++ vs ++ "'")
      | some idx =>
        Except.ok (if 0 ≤ idx ∧ idx < (shared.length : Int)
          then shared.getD idx.toNat "" else "")
    | none => Except.ok ""
  else if c.t = some "inlineStr" then
    Except.ok (match c.ist with
      | some s => s
      | none => "")
  else
    Except.ok (match c.v with
      | some vs => vs
      | none => "")

/-- Python dict assignment `cells[col_index] = cell_value`: a present key is
overwritten in place, a new key is appended (insertion order preserved). -/
def dictInsert (d : List (Nat × CellValue)) (k : Nat) (v : CellValue) :
    List (Nat × CellValue) :=
  if d.any (fun e => e.1 == k) then d.map (fun e => if e.1 == k then (k, v) else e)
  else d ++ [(k, v)]

/-- The fill pass of one row of `_parse_sheet_rows`: positions `1..max_col`
(a column index of 0 — a reference with no letters — lands on Python's
`row_values[-1]`, the last slot). -/
def fillRow (cells : List (Nat × CellValue)) : List CellValue :=
  let maxCol := cells.foldl (fun m e => max m e.1) 0
  if maxCol = 0 then []
  else
    cells.foldl
      (fun rv e => rv.set (if e.1 = 0 then maxCol - 1 else e.1 - 1) e.2)
      (List.replicate maxCol default)

/-- `_parse_sheet_rows`, one row: collect the cells with a non-empty
reference into the dict — a cell whose text raises (`int()` on a bad
shared-string index) aborts the whole parse with that error — then fill
positions `1..max_col`. -/
def parseRow (shared : List String) (row : XmlRow) :
    Except String (List CellValue) :=
  (row.cells.foldl
    (fun acc c => acc.bind (fun d =>
      if c.ref.isEmpty then Except.ok d
      else (parsedText shared c).map (fun text =>
        dictInsert d (_column_index_from_ref c.ref) ⟨text, c.f, c.t⟩)))
    (Except.ok [])).map fillRow

/-- `_parse_sheet_rows` over a whole sheet part, stopping at the first row
whose parse raises. -/
def _parse_sheet_rows : List XmlRow → List String →
    Except String (List (List CellValue))
  | [], _ => Except.ok []
  | xr :: rest, shared =>
    match parseRow shared xr with
    | Except.error e => Except.error e
    | Except.ok rowvals =>
      match _parse_sheet_rows rest shared with
      | Except.error e => Except.error e
      | Except.ok rows => Except.ok (rowvals :: rows)

/-! ## Round trip of the cell reference -/

theorem mem_column_letter_aux : ∀ fuel n, ∀ ch ∈ _column_letter_aux fuel n,
    ∃ r < 26, ch = Char.ofNat (65 + r) := by
  intro fuel
  induction fuel with
  | zero =>
    intro n ch h
    cases n with
    | zero => cases h
    | succ m => cases h
  | succ fuel ih =>
    intro n ch h
    cases n with
    | zero => cases h
    | succ m =>
      rw [_column_letter_aux, List.mem_append] at h
      rcases h with h | h
      · exact ih (m / 26) ch h
      · rw [List.mem_singleton] at h
        exact ⟨m % 26, Nat.mod_lt m (by omega), h⟩

theorem mem_column_letter : ∀ n, ∀ ch ∈ _column_letter n, ∃ r < 26, ch = Char.ofNat (65 + r) := by
  intro n
  exact mem_column_letter_aux n n

theorem mem_natCharsAux : ∀ fuel n, ∀ ch ∈ natCharsAux fuel n,
    ∃ d < 10, ch = Char.ofNat (48 + d) := by
  intro fuel
  induction fuel with
  | zero =>
    intro n ch h
    cases n with
    | zero => cases h
    | succ m => cases h
  | succ fuel ih =>
    intro n ch h
    cases n with
    | zero => cases h
    | succ m =>
      rw [natCharsAux, List.mem_append] at h
      rcases h with h | h
      · exact ih _ ch h
      · rw [List.mem_singleton] at h
        exact ⟨(m + 1) % 10, Nat.mod_lt _ (by omega), h⟩

theorem letter_isAlpha : ∀ r < 26, (Char.ofNat (65 + r)).isAlpha = true := by decide

theorem letter_toUpper_toNat : ∀ r < 26, (Char.ofNat (65 + r)).toUpper.toNat = 65 + r := by
  decide

theorem digit_not_isAlpha : ∀ d < 10, (Char.ofNat (48 + d)).isAlpha = false := by decide

/-- Filtering the cell reference for letters recovers exactly the column
letters; the appended row digits are discarded. -/
theorem filter_alpha_ref (n r : Nat) :
    (_column_letter n ++ natChars r).filter (fun ch => ch.isAlpha) = _column_letter n := by
  rw [List.filter_append]
  have h1 : (_column_letter n).filter (fun ch => ch.isAlpha) = _column_letter n := by
    rw [List.filter_eq_self]
    intro ch hch
    obtain ⟨q, hq, rfl⟩ := mem_column_letter n ch hch
    exact letter_isAlpha q hq
  have h2 : (natChars r).filter (fun ch => ch.isAlpha) = [] := by
    rw [List.filter_eq_nil_iff]
    intro ch hch
    obtain ⟨d, hd, rfl⟩ := mem_natCharsAux r r ch hch
    simp [digit_not_isAlpha d hd]
  rw [h1, h2, List.append_nil]

theorem colIndex_foldl_affine (l : List Char) :
    ∀ acc : Nat, l.foldl (fun idx ch => idx * 26 + (ch.toUpper.toNat - 65 + 1)) acc
      = acc * 26 ^ l.length + l.foldl (fun idx ch => idx * 26 + (ch.toUpper.toNat - 65 + 1)) 0 := by
  induction l with
  | nil =>
    intro acc
    simp
  | cons ch cs ih =>
    intro acc
    rw [List.foldl_cons, List.foldl_cons, ih (acc * 26 + (ch.toUpper.toNat - 65 + 1)),
      ih (0 * 26 + (ch.toUpper.toNat - 65 + 1))]
    simp only [List.length_cons]
    ring

theorem colLetter_aux_foldl : ∀ n : Nat, ∀ fuel, n ≤ fuel →
    (_column_letter_aux fuel n).foldl (fun idx ch => idx * 26 + (ch.toUpper.toNat - 65 + 1)) 0
      = n := by
  intro n
  induction n using Nat.strong_induction_on with
  | _ n ih =>
    match n with
    | 0 =>
      intro fuel hf
      cases fuel with
      | zero => rfl
      | succ f => rfl
    | m + 1 =>
      intro fuel hf
      match fuel, hf with
      | f + 1, _ =>
        rw [_column_letter_aux, List.foldl_append, List.foldl_cons, List.foldl_nil,
          ih (m / 26) (by omega) f (by omega),
          letter_toUpper_toNat (m % 26) (Nat.mod_lt m (by omega))]
        omega

theorem colLetter_foldl : ∀ n : Nat,
    (_column_letter n).foldl (fun idx ch => idx * 26 + (ch.toUpper.toNat - 65 + 1)) 0 = n := by
  intro n
  exact colLetter_aux_foldl n n (Nat.le_refl n)

/-- The column index parsed back from a generated cell reference is the
column the writer encoded. -/
theorem column_roundtrip (n r : Nat) :
    _column_index_from_ref (_column_letter n ++ natChars r) = n := by
  rw [_column_index_from_ref, filter_alpha_ref, colLetter_foldl]

theorem column_letter_ne_nil (n : Nat) (hn : 1 ≤ n) : _column_letter n ≠ [] := by
  match n, hn with
  | m + 1, _ =>
    rw [_column_letter, _column_letter_aux]
    simp

/-! ## Round trip of one cell -/

/-- Cells the round trip preserves verbatim: the formula field is either
absent or non-empty (Python treats `formula=""` as no formula), and a cell
carrying both a formula and a non-empty cached value does not claim the
shared-string or inline-string data types (the writer would emit a `<v>`
that the parser would then refuse to read as plain text). -/
def CellWF (c : CellValue) : Prop :=
  c.formula ≠ some "" ∧
  (strOptTruthy c.formula = true → c.value ≠ "" →
    c.data_type ≠ some "s" ∧ c.data_type ≠ some "inlineStr")

/-- The type attribute the writer puts on the cell, as a function of the
cell alone. -/
def builtT (c : CellValue) : Option String :=
  if strOptTruthy c.formula then
    (if strOptTruthy c.data_type then c.data_type else none)
  else some "inlineStr"

theorem buildCellXml_t (r col : Nat) (c : CellValue) :
    (buildCellXml r col c).t = builtT c := by
  rw [buildCellXml, builtT]
  by_cases hf : strOptTruthy c.formula = true
  · simp [hf]
  · simp [hf]

theorem buildCellXml_ref (r col : Nat) (c : CellValue) :
    (buildCellXml r col c).ref = _column_letter col ++ natChars r := by
  rw [buildCellXml]
  by_cases hf : strOptTruthy c.formula = true
  · simp [hf]
  · simp [hf]

theorem strOptTruthy_false {o : Option String} (hne : o ≠ some "")
    (hf : ¬ strOptTruthy o = true) : o = none := by
  cases o with
  | none => rfl
  | some s =>
    exfalso
    apply hne
    simp only [strOptTruthy, Bool.not_eq_true] at hf
    have hemp : s.isEmpty = true := by
      cases hb : s.isEmpty
      · rw [hb] at hf
        simp at hf
      · rfl
    rw [String.isEmpty_iff] at hemp
    rw [hemp]

/-- Parsing the built cell succeeds, recovering the cached value and the
formula of a well-formed content-bearing cell. -/
theorem parse_buildCellXml (r col : Nat) (c : CellValue) (hwf : CellWF c) :
    parsedText [] (buildCellXml r col c) = Except.ok c.value ∧
      (buildCellXml r col c).f = c.formula := by
  obtain ⟨hne, hdt⟩ := hwf
  by_cases hf : strOptTruthy c.formula = true
  · have hbuild : buildCellXml r col c =
        { ref := _column_letter col ++ natChars r
          t := if strOptTruthy c.data_type then c.data_type else none
          f := c.formula
          v := if c.value.isEmpty then none else some c.value
          ist := none } := by
      rw [buildCellXml, if_pos hf]
    rw [hbuild]
    refine ⟨?_, rfl⟩
    by_cases hv : c.value = ""
    · have hvemp : c.value.isEmpty = true := by
        rw [String.isEmpty_iff]
        exact hv
      simp only [parsedText, hvemp, ite_true]
      by_cases ht1 : (if strOptTruthy c.data_type then c.data_type else none) = some "s"
      · simp only [ht1, ite_true]
        rw [hv]
      · simp only [ht1, ite_false]
        by_cases ht2 : (if strOptTruthy c.data_type then c.data_type else none)
            = some "inlineStr"
        · simp only [ht2, ite_true]
          rw [hv]
        · simp only [ht2, ite_false]
          rw [hv]
    · obtain ⟨hs, hinline⟩ := hdt hf hv
      have hvemp : ¬ c.value.isEmpty = true := by
        rw [String.isEmpty_iff]
        exact hv
      have ht1 : ¬ (if strOptTruthy c.data_type then c.data_type else none) = some "s" := by
        by_cases hd : strOptTruthy c.data_type = true
        · simpa [hd] using hs
        · simp [hd]
      have ht2 : ¬ (if strOptTruthy c.data_type then c.data_type else none)
          = some "inlineStr" := by
        by_cases hd : strOptTruthy c.data_type = true
        · simpa [hd] using hinline
        · simp [hd]
      simp only [parsedText, hvemp, ite_false, ht1, ht2]
      simp
  · have hbuild : buildCellXml r col c =
        { ref := _column_letter col ++ natChars r
          t := some "inlineStr"
          f := none
          v := none
          ist := some c.value } := by
      rw [buildCellXml, if_neg hf]
    rw [hbuild]
    constructor
    · have hs : ¬ (some "inlineStr" : Option String) = some "s" := by decide
      simp only [parsedText, hs, ite_false, ite_true]
    · exact (strOptTruthy_false hne hf).symm

/-- `filterMap` of an if-then-some-else-none is filter-then-map. -/
theorem filterMap_ite {α β : Type} (p : α → Bool) (g : α → β) (l : List α) :
    l.filterMap (fun x => if p x then some (g x) else none) = (l.filter p).map g := by
  induction l with
  | nil => rfl
  | cons x xs ih =>
    rw [List.filterMap_cons, List.filter_cons]
    by_cases hx : p x
    · simp only [hx, ite_true, List.map_cons, ih]
    · simp only [hx, ite_false, ih]
      rfl

theorem pairwise_fst_lt_enumFrom {α : Type} : ∀ (l : List α) (n : Nat),
    List.Pairwise (fun x y : Nat × α => x.1 < y.1) (List.enumFrom n l) := by
  intro l
  induction l with
  | nil =>
    intro n
    exact List.Pairwise.nil
  | cons a as ih =>
    intro n
    refine List.Pairwise.cons ?_ (ih (n + 1))
    intro y hy
    obtain ⟨i, x⟩ := y
    have := (List.mem_enumFrom hy).1
    omega

theorem pairwise_fst_lt_enum {α : Type} (l : List α) :
    List.Pairwise (fun x y : Nat × α => x.1 < y.1) l.enum :=
  pairwise_fst_lt_enumFrom l 0

/-- A run of Python-dict insertions with pairwise-distinct fresh keys is a
plain append in insertion order. -/
theorem dict_fold_keyed {α : Type} (key : α → Nat) (val : α → CellValue) :
    ∀ (l : List α) (d : List (Nat × CellValue)),
      (∀ e ∈ d, ∀ x ∈ l, e.1 ≠ key x) →
      l.Pairwise (fun x y => key x ≠ key y) →
      l.foldl (fun d x => dictInsert d (key x) (val x)) d
        = d ++ l.map (fun x => (key x, val x)) := by
  intro l
  induction l with
  | nil =>
    intro d _ _
    simp
  | cons x xs ih =>
    intro d hd hpw
    rw [List.foldl_cons]
    have hnotin : d.any (fun e => e.1 == key x) = false := by
      rw [Bool.eq_false_iff]
      intro hany
      obtain ⟨e, he, heq⟩ := List.any_eq_true.mp hany
      exact hd e he x (List.mem_cons_self x xs) (by simpa using heq)
    have hdi : dictInsert d (key x) (val x) = d ++ [(key x, val x)] := by
      rw [dictInsert, hnotin]
      simp
    rw [hdi, ih (d ++ [(key x, val x)]) ?hd2 (List.Pairwise.sublist (List.sublist_cons_self x xs) hpw)]
    · rw [List.map_cons, List.append_assoc]
      rfl
    case hd2 =>
      intro e he y hy
      rcases List.mem_append.mp he with he | he
      · exact hd e he y (List.mem_cons_of_mem x hy)
      · rw [List.mem_singleton] at he
        subst he
        exact (List.pairwise_cons.mp hpw).1 y hy

theorem le_foldl_max (l : List (Nat × CellValue)) :
    ∀ acc : Nat, acc ≤ l.foldl (fun m e => max m e.1) acc := by
  induction l with
  | nil =>
    intro acc
    exact Nat.le_refl acc
  | cons x xs ih =>
    intro acc
    rw [List.foldl_cons]
    exact Nat.le_trans (Nat.le_max_left acc x.1) (ih (max acc x.1))

theorem mem_le_foldl_max (l : List (Nat × CellValue)) :
    ∀ (acc : Nat), ∀ e ∈ l, e.1 ≤ l.foldl (fun m e => max m e.1) acc := by
  induction l with
  | nil =>
    intro acc e he
    cases he
  | cons x xs ih =>
    intro acc e he
    rw [List.foldl_cons]
    rcases List.mem_cons.mp he with rfl | he
    · exact Nat.le_trans (Nat.le_max_right acc e.1) (le_foldl_max xs (max acc e.1))
    · exact ih (max acc x.1) e he

/-! ## Round trip of one row -/

/-- The column-indexed entries the parser's dict pass recovers from a built
row: one entry per content-bearing cell, in column order, with the cached
value and formula intact and the written type attribute. -/
def rowEntries (row : List CellValue) : List (Nat × CellValue) :=
  (row.enum.filter (fun cc => cellHasContent cc.2)).map
    (fun cc => (cc.1 + 1, (⟨cc.2.value, cc.2.formula, builtT cc.2⟩ : CellValue)))

theorem rowEntries_key_pos (row : List CellValue) :
    ∀ e ∈ rowEntries row, 1 ≤ e.1 ∧ cellHasContent e.2 = true := by
  intro e he
  rw [rowEntries, List.mem_map] at he
  obtain ⟨cc, hcc, rfl⟩ := he
  have hcont := List.of_mem_filter hcc
  refine ⟨by omega, ?_⟩
  simp only [decide_eq_true_eq] at hcont
  rw [cellHasContent] at hcont ⊢
  exact hcont

theorem rowEntries_pairwise (row : List CellValue) :
    (rowEntries row).Pairwise (fun x y => x.1 < y.1) := by
  rw [rowEntries]
  apply List.Pairwise.map
  · intro a b h
    exact h
  · exact (List.Pairwise.sublist (List.filter_sublist _) (pairwise_fst_lt_enum row)).imp
      (fun h => by omega)

theorem cellHasContent_mk (v : String) (f t : Option String) :
    cellHasContent ⟨v, f, t⟩ = (!v.isEmpty || strOptTruthy f) := rfl

theorem snd_mem_of_mem_enum {α : Type} {row : List α} {cc : Nat × α}
    (h : cc ∈ row.enum) : cc.2 ∈ row := by
  obtain ⟨i, c⟩ := cc
  have h3 := (List.mem_enumFrom h).2.2
  rw [h3]
  exact List.getElem_mem _

/-- A run of fallible dict steps that each succeed is `ok` of the pure
run. -/
theorem dict_fold_bind_pure :
    ∀ (l : List (Nat × CellValue)) (d : List (Nat × CellValue)),
      l.foldl (fun acc cc => acc.bind (fun d2 =>
          Except.ok (dictInsert d2 (cc.1 + 1) ⟨cc.2.value, cc.2.formula, builtT cc.2⟩)))
        (Except.ok d : Except String (List (Nat × CellValue)))
        = Except.ok (l.foldl (fun d2 cc =>
            dictInsert d2 (cc.1 + 1) ⟨cc.2.value, cc.2.formula, builtT cc.2⟩) d) := by
  intro l
  induction l with
  | nil =>
    intro d
    rfl
  | cons cc l ih =>
    intro d
    rw [List.foldl_cons, List.foldl_cons]
    exact ih (dictInsert d (cc.1 + 1) ⟨cc.2.value, cc.2.formula, builtT cc.2⟩)

/-- The dict pass of `_parse_sheet_rows` over a built row parses without
error and recovers exactly the row's content-bearing cells, keyed by their
1-based columns. -/
theorem parse_dict_pass (q : Nat) (row : List CellValue)
    (hwf : ∀ c ∈ row, CellWF c) :
    (buildRowXml q row).cells.foldl
      (fun acc c => acc.bind (fun d =>
        if c.ref.isEmpty then Except.ok d
        else (parsedText [] c).map (fun text =>
          dictInsert d (_column_index_from_ref c.ref) ⟨text, c.f, c.t⟩)))
      (Except.ok []) = Except.ok (rowEntries row) := by
  by_cases hany : row.any cellHasContent
  · rw [buildRowXml, if_pos hany]
    dsimp only
    rw [filterMap_ite, List.foldl_map]
    rw [List.foldl_ext _
      (fun acc (cc : Nat × CellValue) => acc.bind (fun d2 =>
        Except.ok (dictInsert d2 (cc.1 + 1) ⟨cc.2.value, cc.2.formula, builtT cc.2⟩)))
      _ ?hext]
    case hext =>
      intro acc cc hcc
      have hmem := List.mem_of_mem_filter hcc
      have hcrow : cc.2 ∈ row := snd_mem_of_mem_enum hmem
      have hwfc := hwf cc.2 hcrow
      have href := buildCellXml_ref q (cc.1 + 1) cc.2
      have hrefne : ¬ (buildCellXml q (cc.1 + 1) cc.2).ref.isEmpty = true := by
        rw [href, List.isEmpty_iff]
        intro hnil
        exact column_letter_ne_nil (cc.1 + 1) (by omega) (List.append_eq_nil.mp hnil).1
      cases acc with
      | error e => rfl
      | ok d =>
        show (if (buildCellXml q (cc.1 + 1) cc.2).ref.isEmpty then Except.ok d
            else (parsedText [] (buildCellXml q (cc.1 + 1) cc.2)).map (fun text =>
              dictInsert d (_column_index_from_ref (buildCellXml q (cc.1 + 1) cc.2).ref)
                ⟨text, (buildCellXml q (cc.1 + 1) cc.2).f,
                  (buildCellXml q (cc.1 + 1) cc.2).t⟩))
          = Except.ok (dictInsert d (cc.1 + 1)
              ⟨cc.2.value, cc.2.formula, builtT cc.2⟩)
        rw [if_neg hrefne, href, column_roundtrip]
        obtain ⟨hval, hform⟩ := parse_buildCellXml q (cc.1 + 1) cc.2 hwfc
        rw [hval, hform, buildCellXml_t]
        rfl
    rw [dict_fold_bind_pure]
    rw [dict_fold_keyed (fun cc : Nat × CellValue => cc.1 + 1)
      (fun cc : Nat × CellValue => ⟨cc.2.value, cc.2.formula, builtT cc.2⟩) _ []
      (fun e he => absurd he (List.not_mem_nil e)) ?hpw]
    · rw [List.nil_append, rowEntries]
    case hpw =>
      exact (List.Pairwise.sublist (List.filter_sublist _) (pairwise_fst_lt_enum row)).imp
        (fun h => by dsimp only; omega)
  · rw [buildRowXml, if_neg hany]
    dsimp only
    rw [List.foldl_nil, rowEntries]
    have hfilter : row.enum.filter (fun cc => cellHasContent cc.2) = [] := by
      rw [List.filter_eq_nil_iff]
      intro cc hcc
      rw [Bool.not_eq_true] at hany
      rw [List.any_eq_false] at hany
      exact hany cc.2 (snd_mem_of_mem_enum hcc)
    rw [hfilter]
    rfl

/-- The dense row the fill pass produces: columns `s+1 .. s+m`, each holding
its entry's cell or an empty default cell. -/
def denseFrom (s m : Nat) (entries : List (Nat × CellValue)) : List CellValue :=
  (List.range' (s + 1) m).map (fun k =>
    match entries.find? (fun e => e.1 = k) with
    | some e => e.2
    | none => default)

theorem fill_length (mm : Nat) :
    ∀ (entries : List (Nat × CellValue)) (init : List CellValue),
      (entries.foldl (fun rv e => rv.set (if e.1 = 0 then mm - 1 else e.1 - 1) e.2)
        init).length = init.length := by
  intro entries
  induction entries with
  | nil =>
    intro init
    rfl
  | cons e es ih =>
    intro init
    rw [List.foldl_cons, ih, List.length_set]

/-- Element-level description of the fill pass: position `i` holds the entry
keyed `i + 1` when there is one, else the initial element. -/
theorem fill_getElem? (mm : Nat) :
    ∀ (entries : List (Nat × CellValue)) (init : List CellValue),
      (∀ e ∈ entries, 1 ≤ e.1 ∧ e.1 ≤ init.length) →
      entries.Pairwise (fun x y => x.1 ≠ y.1) →
      ∀ i : Nat,
        (entries.foldl (fun rv e => rv.set (if e.1 = 0 then mm - 1 else e.1 - 1) e.2)
            init)[i]? =
          match entries.find? (fun e => e.1 = i + 1) with
          | some e => some e.2
          | none => init[i]? := by
  intro entries
  induction entries with
  | nil =>
    intro init hk hpw i
    rfl
  | cons e es ih =>
    intro init hk hpw i
    obtain ⟨hk1, hk2⟩ := hk e (List.mem_cons_self e es)
    have hkes : ∀ x ∈ es, 1 ≤ x.1 ∧ x.1 ≤ (init.set (e.1 - 1) e.2).length := by
      intro x hx
      rw [List.length_set]
      exact hk x (List.mem_cons_of_mem e hx)
    have hpwes := (List.pairwise_cons.mp hpw).2
    have hne0 : ¬ e.1 = 0 := by omega
    rw [List.foldl_cons, if_neg hne0, ih (init.set (e.1 - 1) e.2) hkes hpwes i]
    by_cases hei : e.1 = i + 1
    · have hfind : es.find? (fun x => x.1 = i + 1) = none := by
        rw [List.find?_eq_none]
        intro x hx
        have := (List.pairwise_cons.mp hpw).1 x hx
        simp only [decide_eq_true_eq]
        omega
      have hfind2 : (e :: es).find? (fun x => x.1 = i + 1) = some e :=
        List.find?_cons_of_pos es (by simp [hei])
      rw [hfind, hfind2]
      have hi : i < init.length := by omega
      have : e.1 - 1 = i := by omega
      rw [this, List.getElem?_set_self hi]
    · have hfind2 : (e :: es).find? (fun x => x.1 = i + 1) = es.find? (fun x => x.1 = i + 1) :=
        List.find?_cons_of_neg es (by simp [hei])
      rw [hfind2]
      cases hfes : es.find? (fun x => x.1 = i + 1) with
      | some x => rfl
      | none =>
        have hne : e.1 - 1 ≠ i := by omega
        rw [List.getElem?_set_ne hne]

/-- The fill pass equals the dense-row description. -/
theorem fill_eq_denseFrom (m : Nat) (entries : List (Nat × CellValue))
    (hk : ∀ e ∈ entries, 1 ≤ e.1 ∧ e.1 ≤ m)
    (hpw : entries.Pairwise (fun x y => x.1 ≠ y.1)) :
    entries.foldl (fun rv e => rv.set (if e.1 = 0 then m - 1 else e.1 - 1) e.2)
      (List.replicate m default) = denseFrom 0 m entries := by
  apply List.ext_getElem?
  intro i
  rw [fill_getElem? m entries (List.replicate m default)
    (by simpa using hk) hpw i]
  rw [denseFrom, List.getElem?_map]
  by_cases hi : i < m
  · rw [List.getElem?_range' _ _ (by simpa using hi)]
    simp only [Option.map_some']
    rw [List.getElem?_replicate, if_pos hi]
    have harith : 0 + 1 + 1 * i = i + 1 := by omega
    rw [harith]
    cases hfind : entries.find? (fun e => e.1 = i + 1) with
    | some e => rfl
    | none => rfl
  · have h1 : (List.range' (0 + 1) m)[i]? = none := by
      rw [List.getElem?_eq_none]
      simpa using hi
    rw [h1]
    simp only [Option.map_none']
    rw [List.getElem?_replicate, if_neg hi]
    have hfind : entries.find? (fun e => e.1 = i + 1) = none := by
      rw [List.find?_eq_none]
      intro x hx
      have := (hk x hx).2
      simp only [decide_eq_true_eq]
      omega
    rw [hfind]

/-! ## Projection onto content-bearing cells -/

/-- The content-bearing cells of a row starting at 0-based position `n`:
1-based column, cached value, formula. -/
def rowPresentFrom (n : Nat) (row : List CellValue) :
    List (Nat × String × Option String) :=
  (row.enumFrom n).filterMap (fun cc =>
    if cellHasContent cc.2 then some (cc.1 + 1, cc.2.value, cc.2.formula) else none)

/-- The content-bearing cells of a row: 1-based column, value, formula. -/
def rowPresent (row : List CellValue) : List (Nat × String × Option String) :=
  rowPresentFrom 0 row

theorem cellHasContent_default : cellHasContent default = false := rfl

/-- Projecting the dense row onto its content-bearing cells recovers the
entry list. -/
theorem rowPresentFrom_dense (m : Nat) :
    ∀ (s : Nat) (entries : List (Nat × CellValue)),
      (∀ e ∈ entries, s + 1 ≤ e.1 ∧ e.1 ≤ s + m ∧ cellHasContent e.2 = true) →
      entries.Pairwise (fun x y => x.1 < y.1) →
      rowPresentFrom s (denseFrom s m entries)
        = entries.map (fun e => (e.1, e.2.value, e.2.formula)) := by
  induction m with
  | zero =>
    intro s entries hk hpw
    have hnil : entries = [] := by
      cases entries with
      | nil => rfl
      | cons e es =>
        have := hk e (List.mem_cons_self e es)
        omega
    subst hnil
    rfl
  | succ m ih =>
    intro s entries hk hpw
    rw [denseFrom, List.range'_succ, List.map_cons]
    rw [rowPresentFrom, List.enumFrom_cons, List.filterMap_cons]
    cases entries with
    | nil =>
      have hfind : ([] : List (Nat × CellValue)).find? (fun e => e.1 = s + 1) = none := rfl
      rw [hfind]
      rw [cellHasContent_default]
      simp only [Bool.false_eq_true, ite_false]
      have htail := ih (s + 1) [] (by intro e he; cases he) List.Pairwise.nil
      rw [denseFrom] at htail
      rw [rowPresentFrom] at htail
      simpa using htail
    | cons e0 tail =>
      obtain ⟨hk1, hk2, hk3⟩ := hk e0 (List.mem_cons_self e0 tail)
      have htailgt := (List.pairwise_cons.mp hpw).1
      by_cases he0 : e0.1 = s + 1
      · have hfind : ((e0 :: tail).find? (fun e => e.1 = s + 1)) = some e0 :=
          List.find?_cons_of_pos tail (by simp [he0])
        rw [hfind, hk3]
        simp only [ite_true]
        have htailD : (List.range' (s + 1 + 1) m).map (fun k =>
            match (e0 :: tail).find? (fun e => e.1 = k) with
            | some e => e.2
            | none => default) = denseFrom (s + 1) m tail := by
          rw [denseFrom]
          apply List.map_congr_left
          intro k hkmem
          rw [List.mem_range'_1] at hkmem
          have hne : ¬ (e0.1 = k) := by omega
          rw [List.find?_cons_of_neg _ (by simp [hne])]
        rw [htailD]
        have htail := ih (s + 1) tail ?hk ?hpw
        case hk =>
          intro e he
          refine ⟨by have := htailgt e he; omega, ?_, (hk e (List.mem_cons_of_mem e0 he)).2.2⟩
          have := (hk e (List.mem_cons_of_mem e0 he)).2.1
          omega
        case hpw => exact (List.pairwise_cons.mp hpw).2
        rw [rowPresentFrom] at htail
        rw [htail, List.map_cons, he0]
      · have hfind : ((e0 :: tail).find? (fun e => e.1 = s + 1)) = none := by
          rw [List.find?_eq_none]
          intro x hx
          simp only [decide_eq_true_eq]
          rcases List.mem_cons.mp hx with rfl | hx
          · exact he0
          · have := htailgt x hx
            omega
        rw [hfind, cellHasContent_default]
        simp only [Bool.false_eq_true, ite_false]
        have htail := ih (s + 1) (e0 :: tail) ?hk hpw
        case hk =>
          intro e he
          rcases List.mem_cons.mp he with rfl | he
          · exact ⟨by omega, by omega, hk3⟩
          · have h4 := hk e (List.mem_cons_of_mem e0 he)
            have := htailgt e he
            exact ⟨by omega, by omega, h4.2.2⟩
        rw [denseFrom] at htail
        rw [rowPresentFrom] at htail
        simpa using htail

/-- `rowPresent` of a row is its entry list, projected. -/
theorem rowPresent_eq_entries (row : List CellValue) :
    rowPresent row = (rowEntries row).map (fun e => (e.1, e.2.value, e.2.formula)) := by
  rw [rowPresent, rowPresentFrom, rowEntries, List.map_map]
  have henum : row.enumFrom 0 = row.enum := rfl
  rw [henum, filterMap_ite]
  rfl

/-- `fillRow` with its let binding expanded. -/
theorem fillRow_eq (cells : List (Nat × CellValue)) :
    fillRow cells =
      (if cells.foldl (fun m e => max m e.1) 0 = 0 then []
       else
         cells.foldl
           (fun rv e =>
             rv.set
               (if e.1 = 0 then cells.foldl (fun m e => max m e.1) 0 - 1
               else e.1 - 1) e.2)
           (List.replicate (cells.foldl (fun m e => max m e.1) 0) default)) := rfl

/-- Parsing a built row succeeds, producing the filled row of its
entries. -/
theorem parseRow_build_ok (q : Nat) (row : List CellValue)
    (hwf : ∀ c ∈ row, CellWF c) :
    parseRow [] (buildRowXml q row) = Except.ok (fillRow (rowEntries row)) := by
  rw [parseRow, parse_dict_pass q row hwf]
  rfl

/-- Round trip of one row: the filled row of a row's entries carries the
same ordered list of content-bearing cells with their columns, values and
formulas. -/
theorem rowPresent_fillRow (row : List CellValue) :
    rowPresent (fillRow (rowEntries row)) = rowPresent row := by
  rw [fillRow_eq]
  by_cases hm : (rowEntries row).foldl (fun m e => max m e.1) 0 = 0
  · rw [if_pos hm]
    have hnil : rowEntries row = [] := by
      cases hent : rowEntries row with
      | nil => rfl
      | cons e es =>
        exfalso
        have h1 := (rowEntries_key_pos row e (by rw [hent]; exact List.mem_cons_self e es)).1
        have h2 := mem_le_foldl_max (rowEntries row) 0 e
          (by rw [hent]; exact List.mem_cons_self e es)
        omega
    rw [rowPresent_eq_entries row, hnil]
    rfl
  · rw [if_neg hm]
    have hk : ∀ e ∈ rowEntries row, 1 ≤ e.1 ∧
        e.1 ≤ (rowEntries row).foldl (fun m e => max m e.1) 0 := by
      intro e he
      exact ⟨(rowEntries_key_pos row e he).1, mem_le_foldl_max (rowEntries row) 0 e he⟩
    have hpw := rowEntries_pairwise row
    rw [fill_eq_denseFrom _ _ hk (hpw.imp (fun h => by omega))]
    rw [rowPresent]
    rw [rowPresentFrom_dense _ 0 (rowEntries row) ?hke hpw]
    · exact (rowPresent_eq_entries row).symm
    case hke =>
      intro e he
      obtain ⟨h1, h2⟩ := rowEntries_key_pos row e he
      exact ⟨by omega, by simpa using (hk e he).2, h2⟩

/-! ## Round trip of a sheet -/

/-- All content-bearing cells of a grid, row-major, starting at row number
`r`: (row, column, value, formula), rows and columns 1-based. -/
def presentCellsAux (r : Nat) : List (List CellValue) →
    List (Nat × Nat × String × Option String)
  | [] => []
  | row :: rest =>
    (rowPresent row).map (fun e => (r, e)) ++ presentCellsAux (r + 1) rest

/-- All content-bearing cells of a grid with 1-based row/column positions. -/
def presentCells (rows : List (List CellValue)) :
    List (Nat × Nat × String × Option String) :=
  presentCellsAux 1 rows

/-- Parsing the whole built sheet succeeds, row by row, for any starting
row index of the writer. -/
theorem parse_sheet_rows_build_ok :
    ∀ (rows : List (List CellValue)) (n : Nat),
      (∀ row ∈ rows, ∀ c ∈ row, CellWF c) →
      _parse_sheet_rows
          ((rows.enumFrom n).map (fun rc => buildRowXml (rc.1 + 1) rc.2)) []
        = Except.ok ((rows.enumFrom n).map (fun rc => fillRow (rowEntries rc.2))) := by
  intro rows
  induction rows with
  | nil =>
    intro n _
    rfl
  | cons row rest ih =>
    intro n hwf
    rw [List.enumFrom_cons, List.map_cons, List.map_cons]
    have h1 := parseRow_build_ok (n + 1) row (hwf row (List.mem_cons_self row rest))
    have h2 := ih (n + 1) (fun rw1 h => hwf rw1 (List.mem_cons_of_mem row h))
    simp only [_parse_sheet_rows, h1, h2]

/-- Lifting the per-row round trip across the whole sheet, for any starting
row number of the projection. -/
theorem presentCellsAux_fill :
    ∀ (rows : List (List CellValue)) (n r : Nat),
      presentCellsAux r ((rows.enumFrom n).map (fun rc => fillRow (rowEntries rc.2)))
        = presentCellsAux r rows := by
  intro rows
  induction rows with
  | nil =>
    intro n r
    rfl
  | cons row rest ih =>
    intro n r
    rw [List.enumFrom_cons, List.map_cons]
    rw [presentCellsAux, presentCellsAux]
    rw [rowPresent_fillRow row]
    rw [ih (n + 1) (r + 1)]

/-- C1 (amended): for every sheet whose cells are well formed — no cell has
an empty-string formula, and no cell carries both a formula and a non-empty
cached value under the shared-string or inline-string type markers —
decoding the sheet XML produced by encoding (`_build_sheet_xml` followed by
`_parse_sheet_rows` with the empty shared-string table `write_xlsx` emits)
succeeds and reproduces the same number of rows and the same ordered list of
content-bearing cells at the same 1-based row and column positions, with
each cell's formula text and cached value preserved verbatim. -/
theorem parse_build_sheet_roundtrip (name : String) (rows : List (List CellValue))
    (hwf : ∀ row ∈ rows, ∀ c ∈ row, CellWF c) :
    ∃ parsed, _parse_sheet_rows (_build_sheet_xml ⟨name, rows⟩) [] = Except.ok parsed ∧
      presentCells parsed = presentCells rows ∧
      parsed.length = rows.length := by
  refine ⟨(rows.enumFrom 0).map (fun rc => fillRow (rowEntries rc.2)), ?_, ?_, ?_⟩
  · rw [_build_sheet_xml]
    have henum : (⟨name, rows⟩ : SheetData).rows.enum = rows.enumFrom 0 := rfl
    rw [henum]
    exact parse_sheet_rows_build_ok rows 0 hwf
  · rw [presentCells, presentCells]
    exact presentCellsAux_fill rows 0 1
  · simp

/-- Witness for the amended C1 at a concrete sheet with a plain text cell, a
gap, a boolean formula cell with cached value, an empty row and a
trailing-empty row. -/
theorem parse_build_sheet_roundtrip_witness :
    (∀ row ∈ [[({value := "A"} : CellValue), {}, {value := "1", formula := some "B1=D1", data_type := some "b"}], [], [{}, ({value := "x"} : CellValue)]], ∀ c ∈ row, CellWF c) ∧
    ∃ parsed, _parse_sheet_rows (_build_sheet_xml ⟨"s",
        [[({value := "A"} : CellValue), {}, {value := "1", formula := some "B1=D1", data_type := some "b"}], [], [{}, ({value := "x"} : CellValue)]]⟩) []
      = Except.ok parsed ∧
    presentCells parsed
      = presentCells
        [[({value := "A"} : CellValue), {}, {value := "1", formula := some "B1=D1", data_type := some "b"}], [], [{}, ({value := "x"} : CellValue)]] := by
  refine ⟨?hwf, ?_⟩
  case hwf =>
    intro row hrow c hc
    constructor
    · fin_cases hrow <;> fin_cases hc <;> simp
    · intro h1 h2
      fin_cases hrow <;> fin_cases hc <;> simp_all
  · obtain ⟨parsed, hok, hpres, _⟩ := parse_build_sheet_roundtrip "s"
      [[({value := "A"} : CellValue), {}, {value := "1", formula := some "B1=D1", data_type := some "b"}], [], [{}, ({value := "x"} : CellValue)]]
      (by
      intro row hrow c hc
      constructor
      · fin_cases hrow <;> fin_cases hc <;> simp
      · intro h1 h2
        fin_cases hrow <;> fin_cases hc <;> simp_all)
    exact ⟨parsed, hok, hpres⟩

/-- C1 counterexample: a cell that carries both a formula and a non-empty
cached value under the `inlineStr` type marker loses its cached value in the
round trip — the writer emits the value as `<v>`, but the parser, seeing
`t="inlineStr"`, looks only for the absent `<is><t>` text. -/
theorem parse_build_sheet_roundtrip_counterexample :
    (_parse_sheet_rows (_build_sheet_xml
        ⟨"s", [[{value := "x", formula := some "F", data_type := some "inlineStr"}]]⟩)
        []).map presentCells
      = Except.ok [(1, 1, "", some "F")] ∧
    presentCells [[({value := "x", formula := some "F", data_type := some "inlineStr"} : CellValue)]]
      = [(1, 1, "x", some "F")] := by
  constructor
  · rfl
  · rfl

/-! ## The archive writer `write_xlsx` (src/xlsx_writer.py) -/

/-- Content of one archive part, at the level this model needs: the fixed
parts keep their parameters, worksheet parts keep their sheet XML tree. -/
inductive PartContent where
  | contentTypes (sheetCount : Nat)
  | rootRels
  | workbook (sheetNames : List String)
  | workbookRels (sheetCount : Nat)
  | styles
  | worksheet (xml : List XmlRow)
  deriving Repr, DecidableEq

/-- `write_xlsx`: refuse an empty sheet list, else produce the archive
entries in the order the source writes them — content types, package
relationships, workbook part, workbook relationships, styles, then one
worksheet part per sheet named `sheet1..sheetN` in workbook order. -/
def write_xlsx (sheets : List SheetData) :
    Except String (List (String × PartContent)) :=
  if sheets.isEmpty then Except.error "Workbook must contain at least one sheet"
  else
    Except.ok
      ([("[Content_Types].xml", PartContent.contentTypes sheets.length),
        ("_rels/.rels", PartContent.rootRels),
        ("xl/workbook.xml", PartContent.workbook (sheets.map SheetData.name)),
        ("xl/_rels/workbook.xml.rels", PartContent.workbookRels sheets.length),
        ("xl/styles.xml", PartContent.styles)] ++
       sheets.enum.map (fun sc =>
         ("xl/worksheets/sheet" ++ String.mk (natChars (sc.1 + 1)) ++ ".xml",
          PartContent.worksheet (_build_sheet_xml sc.2))))

/-- C9: encoding an empty sheet list fails with the contract-violation
error; a non-empty sheet list never trips that check. -/
theorem write_xlsx_empty_check (sheets : List SheetData) :
    (sheets = [] → write_xlsx sheets = Except.error "Workbook must contain at least one sheet") ∧
    (sheets ≠ [] → (write_xlsx sheets).isOk = true) := by
  constructor
  · intro h
    subst h
    rfl
  · intro h
    rw [write_xlsx]
    rw [if_neg (by simpa [List.isEmpty_iff] using h)]
    rfl

/-- Witness for C9 at the empty and a singleton sheet list. -/
theorem write_xlsx_empty_check_witness :
    write_xlsx [] = Except.error "Workbook must contain at least one sheet" ∧
    (write_xlsx [⟨"a", [[]]⟩]).isOk = true :=
  ⟨(write_xlsx_empty_check []).1 rfl,
   (write_xlsx_empty_check [⟨"a", [[]]⟩]).2 (by simp)⟩

/-! ## Decoding an existing archive (src/log_to_excel.py `_load_existing_sheets`) -/

/-- An existing archive as the decoder sees it: the workbook part (the
`(r:id, name)` sheet entries in declared order) and the workbook
relationships part when present, the worksheet parts keyed by their full zip
entry name, and the shared-string table (empty when the part is absent, as
`_load_shared_strings` returns `[]`). -/
structure Archive where
  workbookPart : Option (List (String × String))
  relsPart : Option (List (String × String))
  parts : List (String × List XmlRow)
  sharedStrings : List String

/-- The relationship map `rel_map.get(rid)`: a Python dict comprehension
keeps the last binding of a duplicated `Id`. -/
def relLookup (rels : List (String × String)) (rid : String) : Option String :=
  rels.reverse.lookup rid

/-- The sheet loop of `_load_existing_sheets`: resolve each declared sheet
through the relationship map; a missing or falsy target skips the sheet
(`if not target: continue`); reading a missing worksheet part raises
`KeyError` naming the part — modelled as `Except.error` with the part
name — and a part whose parse raises propagates that error instead. -/
def loadSheetsLoop (arch : Archive) (rels : List (String × String)) :
    List (String × String) → Except String (List SheetData)
  | [] => Except.ok []
  | (rid, name) :: rest =>
    match relLookup rels rid with
    | none => loadSheetsLoop arch rels rest
    | some target =>
      if target.isEmpty then loadSheetsLoop arch rels rest
      else
        match arch.parts.lookup ("xl/" ++ target) with
        | none => Except.error ("xl/" ++ target)
        | some xml =>
          match _parse_sheet_rows xml arch.sharedStrings with
          | Except.error e => Except.error e
          | Except.ok rowvals =>
            match loadSheetsLoop arch rels rest with
            | Except.error e => Except.error e
            | Except.ok restSheets =>
              Except.ok (⟨name, rowvals⟩ :: restSheets)

/-- `_load_existing_sheets`: reading a missing `xl/workbook.xml` or
`xl/_rels/workbook.xml.rels` raises `KeyError` naming the part, then the
sheets are loaded in declared order. -/
def _load_existing_sheets (arch : Archive) : Except String (List SheetData) :=
  match arch.workbookPart with
  | none => Except.error "xl/workbook.xml"
  | some wb =>
    match arch.relsPart with
    | none => Except.error "xl/_rels/workbook.xml.rels"
    | some rels => loadSheetsLoop arch rels wb

theorem loadSheetsLoop_missing (arch : Archive) (rels : List (String × String))
    (hclean : ∀ t xml, arch.parts.lookup t = some xml →
      ∃ r, _parse_sheet_rows xml arch.sharedStrings = Except.ok r) :
    ∀ wb : List (String × String),
      (∃ rid name target, (rid, name) ∈ wb ∧ relLookup rels rid = some target ∧
        ¬ target.isEmpty = true ∧ arch.parts.lookup ("xl/" ++ target) = none) →
      ∃ t, loadSheetsLoop arch rels wb = Except.error ("xl/" ++ t) ∧
        arch.parts.lookup ("xl/" ++ t) = none ∧ ¬ t.isEmpty = true ∧
        ∃ rid name, (rid, name) ∈ wb ∧ relLookup rels rid = some t := by
  intro wb
  induction wb with
  | nil =>
    intro h
    obtain ⟨rid, name, target, hmem, _, _, _⟩ := h
    cases hmem
  | cons hd rest ih =>
    intro h
    obtain ⟨rid, name, target, hmem, hrel, htne, hpart⟩ := h
    obtain ⟨rid0, name0⟩ := hd
    rw [loadSheetsLoop]
    cases hrel0 : relLookup rels rid0 with
    | none =>
      have hrest : (rid, name) ∈ rest := by
        rcases List.mem_cons.mp hmem with heq | hmem'
        · exfalso
          rw [Prod.mk.injEq] at heq
          rw [← heq.1] at hrel0
          rw [hrel0] at hrel
          cases hrel
        · exact hmem'
      obtain ⟨t, h1, h2, h3, rid', name', h4, h5⟩ :=
        ih ⟨rid, name, target, hrest, hrel, htne, hpart⟩
      exact ⟨t, h1, h2, h3, rid', name', List.mem_cons_of_mem _ h4, h5⟩
    | some target0 =>
      dsimp only
      by_cases hemp : target0.isEmpty = true
      · rw [if_pos hemp]
        have hrest : (rid, name) ∈ rest := by
          rcases List.mem_cons.mp hmem with heq | hmem'
          · exfalso
            rw [Prod.mk.injEq] at heq
            rw [← heq.1] at hrel0
            rw [hrel0] at hrel
            cases hrel
            exact htne hemp
          · exact hmem'
        obtain ⟨t, h1, h2, h3, rid', name', h4, h5⟩ :=
          ih ⟨rid, name, target, hrest, hrel, htne, hpart⟩
        exact ⟨t, h1, h2, h3, rid', name', List.mem_cons_of_mem _ h4, h5⟩
      · rw [if_neg hemp]
        cases hpart0 : arch.parts.lookup ("xl/" ++ target0) with
        | none =>
          exact ⟨target0, rfl, hpart0, hemp, rid0, name0, List.mem_cons_self _ _, hrel0⟩
        | some xml =>
          obtain ⟨r, hr⟩ := hclean ("xl/" ++ target0) xml hpart0
          have hrest : (rid, name) ∈ rest := by
            rcases List.mem_cons.mp hmem with heq | hmem'
            · exfalso
              rw [Prod.mk.injEq] at heq
              rw [← heq.1] at hrel0
              rw [hrel0] at hrel
              cases hrel
              rw [hpart0] at hpart
              cases hpart
            · exact hmem'
          obtain ⟨t, h1, h2, h3, rid', name', h4, h5⟩ :=
            ih ⟨rid, name, target, hrest, hrel, htne, hpart⟩
          refine ⟨t, ?_, h2, h3, rid', name', List.mem_cons_of_mem _ h4, h5⟩
          dsimp only
          rw [hr, h1]

/-- C5 (amended): an archive missing the workbook part or the workbook
relationships part makes decoding fail with an error naming the missing
part; and when every stored worksheet part parses cleanly, a missing
worksheet part referenced (with a non-empty target) by a declared sheet's
relationship id also makes decoding fail with an error naming the missing
part — no sheet list is ever produced in these cases. -/
theorem load_missing_part_fails (arch : Archive) :
    (arch.workbookPart = none →
      _load_existing_sheets arch = Except.error "xl/workbook.xml") ∧
    (∀ wb, arch.workbookPart = some wb → arch.relsPart = none →
      _load_existing_sheets arch = Except.error "xl/_rels/workbook.xml.rels") ∧
    (∀ wb rels, arch.workbookPart = some wb → arch.relsPart = some rels →
      (∀ t xml, arch.parts.lookup t = some xml →
        ∃ r, _parse_sheet_rows xml arch.sharedStrings = Except.ok r) →
      (∃ rid name target, (rid, name) ∈ wb ∧ relLookup rels rid = some target ∧
        ¬ target.isEmpty = true ∧ arch.parts.lookup ("xl/" ++ target) = none) →
      ∃ t, _load_existing_sheets arch = Except.error ("xl/" ++ t) ∧
        arch.parts.lookup ("xl/" ++ t) = none ∧ ¬ t.isEmpty = true ∧
        ∃ rid name, (rid, name) ∈ wb ∧ relLookup rels rid = some t) := by
  refine ⟨?_, ?_, ?_⟩
  · intro h
    rw [_load_existing_sheets, h]
  · intro wb hwb hrels
    rw [_load_existing_sheets, hwb, hrels]
  · intro wb rels hwb hrels hclean hex
    rw [_load_existing_sheets, hwb, hrels]
    exact loadSheetsLoop_missing arch rels hclean wb hex

/-- Witness for the amended C5 at three concrete broken archives. -/
theorem load_missing_part_fails_witness :
    _load_existing_sheets ⟨none, some [], [], []⟩ = Except.error "xl/workbook.xml" ∧
    _load_existing_sheets ⟨some [("rId1", "a")], none, [], []⟩
      = Except.error "xl/_rels/workbook.xml.rels" ∧
    ∃ t, _load_existing_sheets
        ⟨some [("rId1", "a")], some [("rId1", "worksheets/sheet1.xml")], [], []⟩
      = Except.error ("xl/" ++ t) := by
  refine ⟨?_, ?_, ?_⟩
  · exact (load_missing_part_fails ⟨none, some [], [], []⟩).1 rfl
  · exact (load_missing_part_fails ⟨some [("rId1", "a")], none, [], []⟩).2.1 _ rfl rfl
  · obtain ⟨t, h1, _⟩ := (load_missing_part_fails
      ⟨some [("rId1", "a")], some [("rId1", "worksheets/sheet1.xml")], [], []⟩).2.2
      [("rId1", "a")] [("rId1", "worksheets/sheet1.xml")] rfl rfl
      (fun t xml h => nomatch h)
      ⟨"rId1", "a", "worksheets/sheet1.xml", by simp, by rfl, by decide, by rfl⟩
    exact ⟨t, h1⟩

/-- An archive whose first declared sheet's part holds a `t="s"` cell with
a non-numeric shared-string index, while the second declared sheet's part is
missing from the archive. -/
def badArch : Archive :=
  ⟨some [("rId1", "s1"), ("rId2", "s2")],
   some [("rId1", "ws1.xml"), ("rId2", "ws2.xml")],
   [("xl/ws1.xml", [⟨[⟨['A', '1'], some "s", none, some "abc", none⟩]⟩])],
   []⟩

/-- C5 counterexample: decoding an archive with a missing worksheet part can
fail with an error that does not name the missing part — the earlier
declared sheet's `t="s"` cell with the non-numeric index `abc` makes
`int()` raise `ValueError` before the loop reaches the sheet whose part
`xl/ws2.xml` is missing. -/
theorem load_missing_part_counterexample :
    _load_existing_sheets badArch
      = Except.error "invalid literal for int() with base 10: 'abc'" ∧
    badArch.parts.lookup ("xl/" ++ "ws2.xml") = none ∧
    (∃ rid name, (rid, name) ∈ [("rId1", "s1"), ("rId2", "s2")] ∧
      relLookup [("rId1", "ws1.xml"), ("rId2", "ws2.xml")] rid = some "ws2.xml" ∧
      ¬ ("ws2.xml" : String).isEmpty = true) ∧
    ("invalid literal for int() with base 10: 'abc'" : String) ≠ "xl/" ++ "ws2.xml" := by
  refine ⟨rfl, rfl, ⟨"rId2", "s2", by decide, rfl, by decide⟩, by decide⟩

/-! ## The report assembler (src/log_to_excel.py) -/

/-- The self-name formula placed in the header block. -/
def SHEET_NAME_FORMULA : String :=
  "RIGHT(CELL(\"filename\",A1),LEN(CELL(\"filename\",A1))-FIND(\"]\",CELL(\"filename\",A1)))"

/-- `_build_header_rows`: the fixed seven header rows. -/
def _build_header_rows (stg_host prd_host : String) : List (List CellValue) :=
  [ [{value := "InfoOne延命プロジェクト"}, {}, {}, {}, {}],
    [{value := "オンプレ単体テスト（NewSTG基盤）"}, {}, {}, {}, {}],
    [{}, {}, {}, {}, {}],
    [{}, {value := "対象サーバ"}, {value := "備考"}, {}, {}],
    [{}, {value := "", formula := some SHEET_NAME_FORMULA, data_type := some "str"}, {}, {}, {}],
    [{}, {}, {}, {}, {}],
    [{}, {value := "現行サーバ（" ++ stg_host ++ "）"}, {value := "差分有無"},
     {value := "新基盤（" ++ prd_host ++ "）"}, {value := "備考"}] ]

/-- `_build_rows_for_pair`, with the file reads made explicit: headers, then
one five-cell row per aligned pair, with `current_row` starting at
`len(headers) + 1` and incrementing. -/
def _build_rows_for_pair (stg_host prd_host : String)
    (stg_lines prd_lines : List String) : List (List CellValue) :=
  _build_header_rows stg_host prd_host ++
    (_align_logs stg_lines prd_lines).enum.map (fun kp =>
      ([{}, {value := kp.2.stg},
        {value := if kp.2.stg = kp.2.prd then "1" else "0",
         formula := some ("B"
           ++ String.mk (natChars ((_build_header_rows stg_host prd_host).length + 1 + kp.1))
           ++ "=D"
           ++ String.mk (natChars ((_build_header_rows stg_host prd_host).length + 1 + kp.1))),
         data_type := some "b"},
        {value := kp.2.prd},
        {value := if (if kp.2.stg = kp.2.prd then "1" else "0") = "1" then ""
         else "差異あり"}] : List CellValue))

/-- C3: the `k`-th aligned pair (0-based) lands at list position `7 + k`,
i.e. 1-based spreadsheet row `8 + k`; its match cell (column C) displays
`"1"` exactly when the two texts are equal, carries the boolean-typed
formula `B{row}=D{row}` whose row reference `8 + k` equals the actual
1-based position of the row, and its note cell (column E) is `差異あり`
exactly when the texts differ, else empty. -/
theorem match_cell_formula_and_note (stg_host prd_host : String)
    (stg_lines prd_lines : List String) (k : Nat)
    (hk : k < (_align_logs stg_lines prd_lines).length) :
    (_build_rows_for_pair stg_host prd_host stg_lines prd_lines).getD (7 + k) [] =
      [{}, {value := ((_align_logs stg_lines prd_lines).getD k ⟨"", "", none, none⟩).stg},
       {value := if ((_align_logs stg_lines prd_lines).getD k ⟨"", "", none, none⟩).stg
            = ((_align_logs stg_lines prd_lines).getD k ⟨"", "", none, none⟩).prd
          then "1" else "0",
        formula := some ("B" ++ String.mk (natChars (8 + k)) ++ "=D"
          ++ String.mk (natChars (8 + k))),
        data_type := some "b"},
       {value := ((_align_logs stg_lines prd_lines).getD k ⟨"", "", none, none⟩).prd},
       {value := if ((_align_logs stg_lines prd_lines).getD k ⟨"", "", none, none⟩).stg
            = ((_align_logs stg_lines prd_lines).getD k ⟨"", "", none, none⟩).prd
          then "" else "差異あり"}] ∧
    8 + k = (7 + k) + 1 ∧
    (_build_rows_for_pair stg_host prd_host stg_lines prd_lines).length
      = 7 + (_align_logs stg_lines prd_lines).length := by
  refine ⟨?_, by omega, ?_⟩
  · rw [_build_rows_for_pair]
    rw [List.getD_eq_getElem?_getD]
    rw [List.getElem?_append_right (by simp [_build_header_rows])]
    have hlen : (_build_header_rows stg_host prd_host).length = 7 := rfl
    rw [hlen]
    have hidx : 7 + k - 7 = k := by omega
    rw [hidx, List.getElem?_map]
    have henum : (_align_logs stg_lines prd_lines).enum[k]?
        = some (k, (_align_logs stg_lines prd_lines).getD k ⟨"", "", none, none⟩) := by
      rw [List.getElem?_enum]
      rw [List.getElem?_eq_getElem hk]
      rw [List.getD_eq_getElem?_getD, List.getElem?_eq_getElem hk]
      rfl
    rw [henum]
    simp only [Option.map_some', Option.getD_some]
    have hrow : 7 + 1 + k = 8 + k := by omega
    rw [hrow]
    by_cases heq : ((_align_logs stg_lines prd_lines).getD k ⟨"", "", none, none⟩).stg
        = ((_align_logs stg_lines prd_lines).getD k ⟨"", "", none, none⟩).prd
    · rw [if_pos heq]
      simp only [if_pos heq]
      rfl
    · rw [if_neg heq]
      simp only [if_neg heq]
      have hne : ¬ ("0" : String) = "1" := by decide
      rw [if_neg hne]
  · rw [_build_rows_for_pair, List.length_append, List.length_map, List.enum_length]
    rfl

/-- Witness for C3 at a concrete pair with one matching and one differing
row: staged `["a", "b"]`, production `["a", "x"]`, `k = 1`. -/
theorem match_cell_formula_and_note_witness :
    1 < (_align_logs ["a", "b"] ["a", "x"]).length ∧
    (_build_rows_for_pair "s1" "p1" ["a", "b"] ["a", "x"]).getD 8 [] =
      [{}, {value := "b"},
       {value := "0", formula := some "B9=D9", data_type := some "b"},
       {value := "x"},
       {value := "差異あり"}] := by
  have hk : 1 < (_align_logs ["a", "b"] ["a", "x"]).length := by decide
  refine ⟨hk, ?_⟩
  have h := (match_cell_formula_and_note "s1" "p1" ["a", "b"] ["a", "x"] 1 hk).1
  rw [show (7 : Nat) + 1 = 8 from rfl] at h
  rw [h]
  decide

/-! ## Unique sheet names (src/log_to_excel.py `_make_unique_sheet_name`)

Strings are handled at the character-list level here, so that Python's
slicing (including the negative-bound case `base[:31 - len(suffix)]` when
the suffix outgrows 31 characters) can be modelled exactly.  The used-name
set mirrors Python's `set[str]`. -/

theorem natCharsAux_fuel : ∀ n f1 f2, n ≤ f1 → n ≤ f2 →
    natCharsAux f1 n = natCharsAux f2 n := by
  intro n
  induction n using Nat.strong_induction_on with
  | _ n ih =>
    match n with
    | 0 =>
      intro f1 f2 _ _
      cases f1 <;> cases f2 <;> rfl
    | m + 1 =>
      intro f1 f2 h1 h2
      match f1, h1, f2, h2 with
      | g1 + 1, _, g2 + 1, _ =>
        rw [natCharsAux, natCharsAux]
        rw [ih ((m + 1) / 10) (by omega) g1 g2 (by omega) (by omega)]

/-- Unfolding of the decimal representation for positive numbers. -/
theorem natChars_succ (n : Nat) (hn : 1 ≤ n) :
    natChars n = natChars (n / 10) ++ [Char.ofNat (48 + n % 10)] := by
  match n, hn with
  | m + 1, _ =>
    rw [natChars, natChars]
    rw [show natCharsAux (m + 1) (m + 1)
      = natCharsAux m ((m + 1) / 10) ++ [Char.ofNat (48 + (m + 1) % 10)] from rfl]
    rw [natCharsAux_fuel ((m + 1) / 10) m ((m + 1) / 10) (by omega) (Nat.le_refl _)]

theorem natChars_ne_nil (n : Nat) (hn : 1 ≤ n) : natChars n ≠ [] := by
  rw [natChars_succ n hn]
  simp

theorem digitChar_inj : ∀ d1 < 10, ∀ d2 < 10,
    Char.ofNat (48 + d1) = Char.ofNat (48 + d2) → d1 = d2 := by decide

theorem digitChar_ne_dot : ∀ d < 10, Char.ofNat (48 + d) ≠ '.' := by decide

/-- Decimal representations of distinct positive numbers differ. -/
theorem natChars_inj : ∀ n1, 1 ≤ n1 → ∀ n2, 1 ≤ n2 →
    natChars n1 = natChars n2 → n1 = n2 := by
  intro n1
  induction n1 using Nat.strong_induction_on with
  | _ n1 ih =>
    intro h1 n2 h2 heq
    rw [natChars_succ n1 h1, natChars_succ n2 h2] at heq
    have hlen : (natChars (n1 / 10)).length = (natChars (n2 / 10)).length := by
      have hl := congrArg List.length heq
      simp only [List.length_append, List.length_singleton] at hl
      omega
    obtain ⟨hpre, hlast⟩ := List.append_inj heq hlen
    have hmod : n1 % 10 = n2 % 10 := by
      rw [List.cons.injEq] at hlast
      exact digitChar_inj (n1 % 10) (Nat.mod_lt _ (by omega)) (n2 % 10)
        (Nat.mod_lt _ (by omega)) hlast.1
    by_cases h10 : n1 / 10 = 0
    · by_cases h20 : n2 / 10 = 0
      · omega
      · exfalso
        rw [h10] at hpre
        exact natChars_ne_nil (n2 / 10) (by omega) hpre.symm
    · by_cases h20 : n2 / 10 = 0
      · exfalso
        rw [h20] at hpre
        exact natChars_ne_nil (n1 / 10) (by omega) hpre
      · have hdiv := ih (n1 / 10) (by omega) (by omega) (n2 / 10) (by omega) hpre
        omega

theorem natChars_length_le : ∀ k n, n < 10 ^ k → (natChars n).length ≤ k := by
  intro k
  induction k with
  | zero =>
    intro n h
    have : n = 0 := by
      have h1 := h
      rw [Nat.pow_zero] at h1
      omega
    subst this
    exact Nat.le_refl 0
  | succ k ih =>
    intro n h
    by_cases hn : n = 0
    · subst hn
      exact Nat.zero_le _
    · rw [natChars_succ n (by omega), List.length_append, List.length_singleton]
      have hdiv : n / 10 < 10 ^ k := by
        rw [Nat.div_lt_iff_lt_mul (by omega)]
        rw [Nat.pow_succ] at h
        exact h
      have := ih (n / 10) hdiv
      omega

theorem natChars_length_ge : ∀ k n, 10 ^ k ≤ n → k + 1 ≤ (natChars n).length := by
  intro k
  induction k with
  | zero =>
    intro n h
    rw [Nat.pow_zero] at h
    rw [natChars_succ n h, List.length_append, List.length_singleton]
    omega
  | succ k ih =>
    intro n h
    have hn : 1 ≤ n := by
      have : 1 ≤ 10 ^ (k + 1) := Nat.one_le_pow _ _ (by omega)
      omega
    rw [natChars_succ n hn, List.length_append, List.length_singleton]
    have hdiv : 10 ^ k ≤ n / 10 := by
      rw [Nat.le_div_iff_mul_le (by omega)]
      rw [Nat.pow_succ] at h
      exact h
    have := ih (n / 10) hdiv
    omega

/-- Python's `l[:n]` for an `int` bound: a negative bound drops characters
from the end. -/
def pySliceTo (l : List Char) (n : Int) : List Char :=
  if 0 ≤ n then l.take n.toNat else l.take (l.length - (-n).toNat)

/-- The suffix `f".v{counter}"`. -/
def suffixChars (c : Nat) : List Char :=
  '.' :: 'v' :: natChars c

/-- The candidate name `base[:31 - len(suffix)] + suffix`. -/
def candidate (base : List Char) (c : Nat) : List Char :=
  pySliceTo base (31 - ((suffixChars c).length : Int)) ++ suffixChars c

/-- The `while True` loop of `_make_unique_sheet_name`, bounded by explicit
fuel; `used.card + 1` iterations always reach a free candidate (pigeonhole,
`exists_free_candidate` below), which is the loop's termination argument. -/
def muLoop (base : List Char) (used : Finset (List Char)) : Nat → Nat → List Char
  | counter, 0 => candidate base counter
  | counter, fuel + 1 =>
    if candidate base counter ∈ used then muLoop base used (counter + 1) fuel
    else candidate base counter

/-- `_make_unique_sheet_name`: return the base when it is unused, else the
first free `.v2`, `.v3`, … candidate; the returned name is reserved in the
set. -/
def _make_unique_sheet_name (base : List Char) (used : Finset (List Char)) :
    List Char × Finset (List Char) :=
  if base ∈ used then
    (muLoop base used 2 (used.card + 1), insert (muLoop base used 2 (used.card + 1)) used)
  else (base, insert base used)

theorem dot_not_mem_natChars (c : Nat) : '.' ∉ natChars c := by
  intro h
  obtain ⟨d, hd, hch⟩ := mem_natCharsAux c c '.' h
  exact digitChar_ne_dot d hd hch.symm

/-- Candidates for suffixes of different lengths never collide: the shorter
suffix would have to be a proper suffix of the longer one, but a suffix
`".v…"` starts with a dot and no proper suffix of `".v…"` does. -/
theorem candidate_ne_of_suffix_lt (base : List Char) (c1 c2 : Nat)
    (hlt : (suffixChars c1).length < (suffixChars c2).length) :
    candidate base c1 ≠ candidate base c2 := by
  intro heq
  rw [candidate, candidate] at heq
  set p1 := pySliceTo base (31 - ((suffixChars c1).length : Int)) with hp1
  set p2 := pySliceTo base (31 - ((suffixChars c2).length : Int)) with hp2
  have hL : p1.length + (suffixChars c1).length = p2.length + (suffixChars c2).length := by
    have hl := congrArg List.length heq
    simp only [List.length_append] at hl
    exact hl
  have hd : p1.length = p2.length + ((suffixChars c2).length - (suffixChars c1).length) := by
    omega
  have hs1 : suffixChars c1
      = (suffixChars c2).drop ((suffixChars c2).length - (suffixChars c1).length) := by
    have e1 : suffixChars c1 = (p1 ++ suffixChars c1).drop p1.length :=
      (List.drop_left p1 (suffixChars c1)).symm
    rw [heq, hd] at e1
    rw [← List.drop_drop, List.drop_left p2 (suffixChars c2)] at e1
    exact e1
  set d := (suffixChars c2).length - (suffixChars c1).length with hdd
  have hd1 : 1 ≤ d := by omega
  match hd2 : d, hd1 with
  | 1, _ =>
    rw [suffixChars, suffixChars] at hs1
    simp at hs1
  | e + 2, _ =>
    rw [suffixChars, suffixChars] at hs1
    have hdrop : (('.' :: 'v' :: natChars c2).drop (e + 2)) = (natChars c2).drop e := rfl
    rw [hdrop] at hs1
    have hmem : '.' ∈ (natChars c2).drop e := by
      rw [← hs1]
      exact List.mem_cons_self _ _
    exact dot_not_mem_natChars c2 (List.drop_subset e (natChars c2) hmem)

/-- Candidates for distinct counters are distinct. -/
theorem candidate_inj (base : List Char) (c1 : Nat) (h1 : 1 ≤ c1) (c2 : Nat) (h2 : 1 ≤ c2)
    (heq : candidate base c1 = candidate base c2) : c1 = c2 := by
  rcases Nat.lt_trichotomy (suffixChars c1).length (suffixChars c2).length with hlt | hl | hlt
  · exact absurd heq (candidate_ne_of_suffix_lt base c1 c2 hlt)
  · rw [candidate, candidate] at heq
    have hpre : ((31 : Int) - ((suffixChars c1).length : Int))
        = ((31 : Int) - ((suffixChars c2).length : Int)) := by
      rw [hl]
    rw [hpre] at heq
    have hsuf := List.append_inj_right' heq (by rw [hl])
    rw [suffixChars, suffixChars] at hsuf
    simp only [List.cons.injEq, true_and] at hsuf
    exact natChars_inj c1 h1 c2 h2 hsuf
  · exact absurd heq.symm (candidate_ne_of_suffix_lt base c2 c1 hlt)

/-- Pigeonhole: among any `used.card + 1` consecutive candidates from a
positive counter, one is free. -/
theorem exists_free_candidate (base : List Char) (used : Finset (List Char))
    (counter : Nat) (hc : 1 ≤ counter) :
    ∃ c, counter ≤ c ∧ c < counter + used.card + 1 ∧ candidate base c ∉ used := by
  by_contra hall
  push_neg at hall
  have hsub : (Finset.range (used.card + 1)).image (fun i => candidate base (counter + i))
      ⊆ used := by
    intro x hx
    rw [Finset.mem_image] at hx
    obtain ⟨i, hi, rfl⟩ := hx
    rw [Finset.mem_range] at hi
    exact hall (counter + i) (by omega) (by omega)
  have hcard : ((Finset.range (used.card + 1)).image
      (fun i => candidate base (counter + i))).card = used.card + 1 := by
    rw [Finset.card_image_of_injOn, Finset.card_range]
    intro i _ j _ hij
    have := candidate_inj base (counter + i) (by omega) (counter + j) (by omega) hij
    omega
  have := Finset.card_le_card hsub
  omega

/-- The bounded loop returns the first free candidate at or after the start
counter, provided one exists within the fuel window. -/
theorem muLoop_spec (base : List Char) (used : Finset (List Char)) :
    ∀ (fuel counter : Nat),
      (∃ c, counter ≤ c ∧ c < counter + fuel + 1 ∧ candidate base c ∉ used) →
      ∃ c, counter ≤ c ∧ muLoop base used counter fuel = candidate base c ∧
        candidate base c ∉ used ∧ ∀ c', counter ≤ c' → c' < c → candidate base c' ∈ used := by
  intro fuel
  induction fuel with
  | zero =>
    intro counter h
    obtain ⟨c, hc1, hc2, hc3⟩ := h
    have : c = counter := by omega
    subst this
    exact ⟨c, Nat.le_refl c, rfl, hc3, fun c' h1 h2 => absurd (Nat.lt_of_le_of_lt h1 h2)
      (Nat.lt_irrefl c)⟩
  | succ fuel ih =>
    intro counter h
    rw [muLoop]
    by_cases hmem : candidate base counter ∈ used
    · rw [if_pos hmem]
      obtain ⟨c, hc1, hc2, hc3⟩ := h
      have hcne : c ≠ counter := by
        intro hh
        subst hh
        exact hc3 hmem
      obtain ⟨c', hc'1, hc'2, hc'3, hc'4⟩ := ih (counter + 1) ⟨c, by omega, by omega, hc3⟩
      refine ⟨c', by omega, hc'2, hc'3, ?_⟩
      intro c'' h1 h2
      by_cases hce : c'' = counter
      · subst hce
        exact hmem
      · exact hc'4 c'' (by omega) h2
    · rw [if_neg hmem]
      exact ⟨counter, Nat.le_refl _, rfl, hmem, fun c' h1 h2 =>
        absurd (Nat.lt_of_le_of_lt h1 h2) (Nat.lt_irrefl _)⟩

theorem suffixChars_length_le (c : Nat) (hc : c < 10 ^ 27) :
    (suffixChars c).length ≤ 29 := by
  rw [suffixChars]
  simp only [List.length_cons]
  have := natChars_length_le 27 c hc
  omega

/-- C4 (amended): for every base name and every finite used set,
`_make_unique_sheet_name` returns the base itself when it is not in the set,
and otherwise terminates within `used.card + 1` probes — the termination
bound of the `while` loop — returning the first candidate
`base[:31 - len(".vN")] + ".vN"` (N = 2, 3, …) not in the set, which equals
the base truncated to `31 - len(suffix)` characters plus the suffix whenever
the suffix fits in 31 characters.  The returned name is never in the input
set and is always added to the set; and, provided the base is at most 31
characters and the used set holds at most `10^26` names (so the winning
suffix stays within 31 characters), the returned name is at most 31
characters. -/
theorem make_unique_sheet_name_spec (base : List Char) (used : Finset (List Char)) :
    (base ∉ used → _make_unique_sheet_name base used = (base, insert base used)) ∧
    (base ∈ used → ∃ c, 2 ≤ c ∧ c ≤ used.card + 2 ∧
      (_make_unique_sheet_name base used).1 = candidate base c ∧
      ((suffixChars c).length ≤ 31 →
        candidate base c = base.take (31 - (suffixChars c).length) ++ suffixChars c) ∧
      candidate base c ∉ used ∧
      (∀ c', 2 ≤ c' → c' < c → candidate base c' ∈ used)) ∧
    (_make_unique_sheet_name base used).1 ∉ used ∧
    (base.length ≤ 31 → used.card ≤ 10 ^ 26 →
      (_make_unique_sheet_name base used).1.length ≤ 31) ∧
    (_make_unique_sheet_name base used).2
      = insert (_make_unique_sheet_name base used).1 used := by
  by_cases hb : base ∈ used
  · obtain ⟨c0, hc01, hc02, hc03⟩ := exists_free_candidate base used 2 (by omega)
    obtain ⟨c, hcge, hres, hfree, hmin⟩ :=
      muLoop_spec base used (used.card + 1) 2 ⟨c0, hc01, by omega, hc03⟩
    have hcle : c ≤ used.card + 2 := by
      by_contra hgt
      exact hc03 (hmin c0 hc01 (by omega))
    have hform : (suffixChars c).length ≤ 31 →
        candidate base c = base.take (31 - (suffixChars c).length) ++ suffixChars c := by
      intro hsle
      have htoNat : ((31 : Int) - ((suffixChars c).length : Int)).toNat
          = 31 - (suffixChars c).length := by omega
      rw [candidate, pySliceTo,
        if_pos (by omega : (0 : Int) ≤ 31 - ((suffixChars c).length : Int))]
      rw [htoNat]
    have hmk : _make_unique_sheet_name base used
        = (muLoop base used 2 (used.card + 1),
           insert (muLoop base used 2 (used.card + 1)) used) := by
      rw [_make_unique_sheet_name, if_pos hb]
    refine ⟨fun h => absurd hb h,
      fun _ => ⟨c, hcge, hcle, by rw [hmk]; exact hres, hform, hfree, hmin⟩, ?_, ?_, ?_⟩
    · rw [hmk]
      dsimp only
      rw [hres]
      exact hfree
    · intro hb31 hcard
      have hclt : c < 10 ^ 27 := by
        have h26 : used.card + 2 < 10 ^ 27 := by
          have hp27 : (10 : Nat) ^ 27 = 10 ^ 26 * 10 := by rw [← Nat.pow_succ]
          have hp : 1 ≤ (10 : Nat) ^ 26 := Nat.one_le_pow _ _ (by omega)
          omega
        omega
      have hsuf := suffixChars_length_le c hclt
      rw [hmk]
      dsimp only
      rw [hres, hform (by omega), List.length_append, List.length_take]
      omega
    · rw [hmk]
  · have hmk : _make_unique_sheet_name base used = (base, insert base used) := by
      rw [_make_unique_sheet_name, if_neg hb]
    refine ⟨fun _ => hmk, fun h => absurd h hb, ?_, ?_, ?_⟩
    · rw [hmk]
      exact hb
    · intro hb31 _
      rw [hmk]
      exact hb31
    · rw [hmk]

/-- Witness for the amended C4: base `"data"` colliding with itself and its
`.v2` variant resolves to a fresh name of at most 31 characters. -/
theorem make_unique_sheet_name_spec_witness :
    (_make_unique_sheet_name ['d', 'a', 't', 'a']
        {['d', 'a', 't', 'a'], ['d', 'a', 't', 'a', '.', 'v', '2']}).1
      ∉ ({['d', 'a', 't', 'a'], ['d', 'a', 't', 'a', '.', 'v', '2']} :
        Finset (List Char)) ∧
    (['d', 'a', 't', 'a'] : List Char).length ≤ 31 ∧
    ({['d', 'a', 't', 'a'], ['d', 'a', 't', 'a', '.', 'v', '2']} :
        Finset (List Char)).card ≤ 10 ^ 26 ∧
    (_make_unique_sheet_name ['d', 'a', 't', 'a']
        {['d', 'a', 't', 'a'], ['d', 'a', 't', 'a', '.', 'v', '2']}).1.length ≤ 31 := by
  refine ⟨?_, by decide, by decide, ?_⟩
  · exact (make_unique_sheet_name_spec _ _).2.2.1
  · exact (make_unique_sheet_name_spec ['d', 'a', 't', 'a']
      {['d', 'a', 't', 'a'], ['d', 'a', 't', 'a', '.', 'v', '2']}).2.2.2.1
      (by decide) (by decide)

/-- A 31-character base name, the longest `generate_workbook` ever passes in
(`pair.base_name[:31]`). -/
def bigBase : List Char := List.replicate 31 'a'

/-- A used set holding the base and its first `10^31` versioned candidates,
forcing the loop up to a counter whose suffix is longer than 31 characters. -/
def bigUsed : Finset (List Char) :=
  insert bigBase ((Finset.range (10 ^ 31)).image (fun i => candidate bigBase (i + 2)))

theorem bigBase_ne_candidate (c : Nat) : candidate bigBase c ≠ bigBase := by
  intro h
  have hdot : '.' ∈ candidate bigBase c := by
    rw [candidate, suffixChars]
    exact List.mem_append_right _ (List.mem_cons_self _ _)
  rw [h, bigBase] at hdot
  exact absurd (List.eq_of_mem_replicate hdot) (by decide)

theorem bigUsed_card : bigUsed.card = 10 ^ 31 + 1 := by
  have hnot : bigBase ∉ (Finset.range (10 ^ 31)).image (fun i => candidate bigBase (i + 2)) := by
    intro hmem
    rw [Finset.mem_image] at hmem
    obtain ⟨i, _, hi⟩ := hmem
    exact bigBase_ne_candidate (i + 2) hi
  have hinj : Set.InjOn (fun i => candidate bigBase (i + 2))
      (Finset.range (10 ^ 31) : Finset Nat) := by
    intro i _ j _ hij
    have := candidate_inj bigBase (i + 2) (by omega) (j + 2) (by omega) hij
    omega
  rw [bigUsed, Finset.card_insert_of_not_mem hnot, Finset.card_image_of_injOn hinj,
    Finset.card_range]

theorem bigUsed_window (c : Nat) (h2 : 2 ≤ c) (hlt : c < 10 ^ 31 + 2) :
    candidate bigBase c ∈ bigUsed := by
  rw [bigUsed]
  apply Finset.mem_insert_of_mem
  rw [Finset.mem_image]
  refine ⟨c - 2, Finset.mem_range.2 (by omega), ?_⟩
  show candidate bigBase (c - 2 + 2) = candidate bigBase c
  congr 1
  omega

theorem bigFree : candidate bigBase (10 ^ 31 + 2) ∉ bigUsed := by
  rw [bigUsed]
  intro hmem
  rw [Finset.mem_insert] at hmem
  rcases hmem with h | h
  · exact bigBase_ne_candidate _ h
  · rw [Finset.mem_image] at h
    obtain ⟨i, hi, hie⟩ := h
    rw [Finset.mem_range] at hi
    have := candidate_inj bigBase (i + 2) (by omega) (10 ^ 31 + 2) (by omega) hie
    omega

theorem bigSuffix_length : (suffixChars (10 ^ 31 + 2)).length = 34 := by
  rw [suffixChars]
  simp only [List.length_cons]
  have h1 := natChars_length_le 32 (10 ^ 31 + 2) (by norm_num)
  have h2 := natChars_length_ge 31 (10 ^ 31 + 2) (by norm_num)
  omega

theorem bigCandidate_length : (candidate bigBase (10 ^ 31 + 2)).length = 62 := by
  have hb : bigBase.length = 31 := by rw [bigBase, List.length_replicate]
  rw [candidate, List.length_append, bigSuffix_length, pySliceTo,
    if_neg (by norm_num : ¬ (0 : Int) ≤ 31 - ((34 : Nat) : Int)),
    List.length_take, hb]
  norm_num
  decide

/-- C4 counterexample: with a 31-character base and a used set holding the
base plus its first `10^31` versioned candidates, the winning suffix
`".v1000…002"` is 34 characters long, so Python's negative slice
`base_name[:31 - 34]` keeps 28 base characters and the returned sheet name
is 62 characters — the claimed 31-character bound fails. -/
theorem make_unique_sheet_name_counterexample :
    bigBase.length ≤ 31 ∧ bigBase ∈ bigUsed ∧
    31 < (_make_unique_sheet_name bigBase bigUsed).1.length := by
  have hmem : bigBase ∈ bigUsed := Finset.mem_insert_self _ _
  refine ⟨by rw [bigBase, List.length_replicate], hmem, ?_⟩
  have hmk : (_make_unique_sheet_name bigBase bigUsed).1
      = muLoop bigBase bigUsed 2 (bigUsed.card + 1) := by
    rw [_make_unique_sheet_name, if_pos hmem]
  rw [hmk, bigUsed_card]
  obtain ⟨c, hcge, hres, hfree, hmin⟩ := muLoop_spec bigBase bigUsed (10 ^ 31 + 1 + 1) 2
    ⟨10 ^ 31 + 2, by omega, by omega, bigFree⟩
  have hge : 10 ^ 31 + 2 ≤ c := by
    by_contra hlt
    exact hfree (bigUsed_window c hcge (by omega))
  have hle : c ≤ 10 ^ 31 + 2 := by
    by_contra hgt
    exact bigFree (hmin (10 ^ 31 + 2) (by omega) (by omega))
  have hc : c = 10 ^ 31 + 2 := by omega
  rw [hres, hc, bigCandidate_length]
  omega

/-- The staged/production pair metadata `_discover_pairs` produces; the log
files' contents stand in for their paths, since the later stages only read
the lines (`_read_log_lines`). -/
structure LogPair where
  base_name : String
  stg_host : String
  prd_host : String
  stg_lines : List String
  prd_lines : List String

/-- The operations `generate_workbook` performs against the output path, in
order: loading the existing archive and writing the final one. -/
inductive FsAction where
  | readArchive
  | writeArchive (parts : List (String × PartContent))
  deriving Repr, DecidableEq

/-- The per-pair loop of `generate_workbook`: build the rows, truncate the
base name to 31 characters, reserve a unique sheet name (threading the
mutable `used_names` set), and collect the new sheets in pair order. -/
def newSheetsLoop : List LogPair → Finset (List Char) → List SheetData
  | [], _ => []
  | pair :: rest, used =>
    let rows := _build_rows_for_pair pair.stg_host pair.prd_host pair.stg_lines pair.prd_lines
    let named := _make_unique_sheet_name (pair.base_name.toList.take 31) used
    ⟨String.mk named.1, rows⟩ :: newSheetsLoop rest named.2

/-- `generate_workbook`, with the filesystem made explicit: the discovered
pairs are an input, the archive at the output path is `none` when the file
does not exist, and the result pairs the outcome with the trace of archive
operations actually performed.  An empty pair list raises
`FileNotFoundError` naming the input directory before any archive work;
otherwise the existing archive (if any) is loaded, new sheets are appended
after the existing ones, and `write_xlsx` produces the parts that are
written back. -/
def generate_workbook (input_dir : String) (pairs : List LogPair)
    (existing : Option Archive) :
    Except String (List (String × PartContent)) × List FsAction :=
  if pairs.isEmpty then
    (Except.error ("No STG/PRD log pairs were discovered under '" ++ input_dir ++ "'."), [])
  else
    match existing with
    | none =>
      match write_xlsx (newSheetsLoop pairs ∅) with
      | Except.error e => (Except.error e, [])
      | Except.ok parts => (Except.ok parts, [FsAction.writeArchive parts])
    | some arch =>
      match _load_existing_sheets arch with
      | Except.error e => (Except.error e, [FsAction.readArchive])
      | Except.ok existingSheets =>
        let used := (existingSheets.map (fun s => s.name.toList)).toFinset
        match write_xlsx (existingSheets ++ newSheetsLoop pairs used) with
        | Except.error e => (Except.error e, [FsAction.readArchive])
        | Except.ok parts =>
          (Except.ok parts, [FsAction.readArchive, FsAction.writeArchive parts])

/-- C8: when pair discovery finds no staged/production pairs,
`generate_workbook` fails with the `FileNotFoundError` message naming the
input directory and its operation trace is empty — no archive at the output
path is read or written, so a pre-existing archive is left unchanged,
whatever it holds. -/
theorem generate_workbook_no_pairs (input_dir : String) (existing : Option Archive) :
    generate_workbook input_dir [] existing
      = (Except.error ("No STG/PRD log pairs were discovered under '"
          ++ input_dir ++ "'."), []) := rfl

end Log2Excel
